import Mathlib

/-!
Verification of the rack-topology manager and plugin lifecycle of
`src/modules/jackrack/vst2_plugin.c`.

The chain of `vst2_plugin_t` nodes is modelled as a pointer state: node
identities are natural numbers, `next`/`prev` are the link fields read and
written exactly as the C code does, `chain`/`chain_end` are the
`vst2_process_info_t` head and tail references, and `aux` records the
`aux_ports` array of each holder (node, copy) pair, as swapped by
`vst2_plugin_swap_aux_ports`.  Immutable per-node descriptor data
(`desc->id`, `desc->aux_channels`, `plugin->copies`) and the presence of the
jack client live in a read-only environment.  The downstream loops of
`vst2_process_remove_plugin` and `vst2_process_change_plugin` chase `next`
pointers, so they take an explicit fuel bound; every theorem that uses them
supplies fuel at least the length of the downstream list, where the loop
provably terminates by reaching the nil link.
-/

/-- Pointwise update of a link field, as one C pointer-field assignment. -/
def upd (f : Nat → Option Nat) (x : Nat) (v : Option Nat) : Nat → Option Nat :=
  fun y => if y = x then v else f y

/-- Pointwise update of one holder's `aux_ports` slot. -/
def upd2 (f : Nat → Nat → Nat) (x c : Nat) (v : Nat) : Nat → Nat → Nat :=
  fun y d => if y = x ∧ d = c then v else f y d

/-- The mutable state the topology manager edits: the `vst2_process_info_t`
head (`chain`) and tail (`chain_end`) references, the `prev`/`next` link
fields of every node, and every holder's `aux_ports` handle. -/
structure PState where
  chain : Option Nat
  chain_end : Option Nat
  next : Nat → Option Nat
  prev : Nat → Option Nat
  aux : Nat → Nat → Nat

/-- A fresh process context: empty chain, all nodes unlinked. -/
def emptyState : PState :=
  { chain := none
    chain_end := none
    next := fun _ => none
    prev := fun _ => none
    aux := fun _ _ => 0 }

/-- Read-only data surrounding the chain edits: whether the jack client is
active, and per node its descriptor `id`, its descriptor `aux_channels`
count and its `copies` field. -/
structure Vst2Env where
  jack_client : Bool
  descId : Nat → Nat
  aux_channels : Nat → Nat
  copies : Nat → Nat

/-- The copy loop of `vst2_plugin_swap_aux_ports`: for each copy below `k`,
exchange `plugin->holders[copy].aux_ports` with
`other->holders[copy].aux_ports` through a temporary. -/
def vst2_plugin_swap_aux_ports_loop (plugin other : Nat) : Nat → PState → PState
  | 0, s => s
  | copy + 1, s =>
    let s1 := vst2_plugin_swap_aux_ports_loop plugin other copy s
    let tmp := s1.aux other copy
    let s2 := { s1 with aux := upd2 s1.aux other copy (s1.aux plugin copy) }
    { s2 with aux := upd2 s2.aux plugin copy tmp }

/-- `vst2_plugin_swap_aux_ports`: swap the jack ports of two plugins,
iterating over `plugin->copies`. -/
def vst2_plugin_swap_aux_ports (env : Vst2Env) (s : PState) (plugin other : Nat) : PState :=
  vst2_plugin_swap_aux_ports_loop plugin other (env.copies plugin) s

/-- `vst2_process_add_plugin`: `plugin->next = NULL`;
`plugin->prev = procinfo->chain_end`; then either `chain_end->next = plugin`
or `procinfo->chain = plugin`; finally `procinfo->chain_end = plugin`. -/
def vst2_process_add_plugin (s : PState) (plugin : Nat) : PState :=
  let s1 := { s with next := upd s.next plugin none }
  let s2 := { s1 with prev := upd s1.prev plugin s1.chain_end }
  let s3 := match s2.chain_end with
    | some ce => { s2 with next := upd s2.next ce (some plugin) }
    | none => { s2 with chain := some plugin }
  { s3 with chain_end := some plugin }

/-- The downstream loop shared by `vst2_process_remove_plugin` and
`vst2_process_change_plugin`: walk `other = plugin->next; other;
other = other->next` and swap aux ports with every node whose descriptor
`id` equals `plugin->desc->id`.  `fuel` bounds the pointer chase. -/
def vst2_aux_swap_downstream (env : Vst2Env) (plugin : Nat) :
    Nat → Option Nat → PState → PState
  | 0, _, s => s
  | _ + 1, none, s => s
  | fuel + 1, some other, s =>
    let s1 := if env.descId other = env.descId plugin
      then vst2_plugin_swap_aux_ports env s plugin other
      else s
    vst2_aux_swap_downstream env plugin fuel (s1.next other) s1

/-- The downstream aux-port loop expressed over the explicit list of
downstream nodes instead of the fuelled pointer chase; the two agree once
the cursor provably spells out that list (`downstream_eq_fold`). -/
def auxFold (env : Vst2Env) (plugin : Nat) : List Nat → PState → PState
  | [], s => s
  | x :: xs, s =>
    auxFold env plugin xs
      (if env.descId x = env.descId plugin
        then vst2_plugin_swap_aux_ports env s plugin x
        else s)

/-- The downstream nodes whose descriptor `id` matches the removed node's,
in chain order: exactly the nodes the downstream loop swaps with. -/
def matchingIds (env : Vst2Env) (plugin : Nat) : List Nat → List Nat
  | [] => []
  | x :: xs =>
    if env.descId x = env.descId plugin
      then x :: matchingIds env plugin xs
      else matchingIds env plugin xs

/-- The pointer-unlinking stage of `vst2_process_remove_plugin`:
`plugin->prev->next = plugin->next` or `procinfo->chain = plugin->next`;
then `plugin->next->prev = plugin->prev` or
`procinfo->chain_end = plugin->prev`. -/
def remove_links (s : PState) (plugin : Nat) : PState :=
  let s1 := match s.prev plugin with
    | some pr => { s with next := upd s.next pr (s.next plugin) }
    | none => { s with chain := s.next plugin }
  match s1.next plugin with
  | some nx => { s1 with prev := upd s1.prev nx (s1.prev plugin) }
  | none => { s1 with chain_end := s1.prev plugin }

/-- `vst2_process_remove_plugin`: unlink the node, then, when the jack
client is active and the node's descriptor declares aux channels, swap aux
ports with every downstream node of the same descriptor `id`; return the
removed node. -/
def vst2_process_remove_plugin (env : Vst2Env) (s : PState) (plugin : Nat)
    (fuel : Nat) : PState × Nat :=
  let s2 := remove_links s plugin
  let s3 := if env.jack_client = true ∧ 0 < env.aux_channels plugin
    then vst2_aux_swap_downstream env plugin fuel (s2.next plugin) s2
    else s2
  (s3, plugin)

/-- The aux stage of `vst2_process_move_plugin`: after relinking, if the
jack client is active and `plugin->desc->aux_channels > 0`, look at
`plugin->next` (up) or `plugin->prev` (down) and swap aux ports when the
descriptor ids match. -/
def vst2_move_aux_swap (env : Vst2Env) (s : PState) (plugin : Nat) (up : Bool) : PState :=
  if env.jack_client = true ∧ 0 < env.aux_channels plugin then
    match (if up then s.next plugin else s.prev plugin) with
    | some other =>
      if env.descId other = env.descId plugin
        then vst2_plugin_swap_aux_ports env s plugin other
        else s
    | none => s
  else s

/-- The relink writes of the `up` branch of `vst2_process_move_plugin`,
with `pv = p = plugin->prev` already known non-nil:
`pp->next = plugin` or `chain = plugin`; `p->next = n`; `p->prev = plugin`;
`plugin->prev = pp`; `plugin->next = p`; `n->prev = p` or `chain_end = p`. -/
def move_up_relink (s : PState) (plugin pv : Nat) : PState :=
  let pp := s.prev pv
  let n := s.next plugin
  let s1 := match pp with
    | some ppv => { s with next := upd s.next ppv (some plugin) }
    | none => { s with chain := some plugin }
  let s2 := { s1 with next := upd s1.next pv n }
  let s3 := { s2 with prev := upd s2.prev pv (some plugin) }
  let s4 := { s3 with prev := upd s3.prev plugin pp }
  let s5 := { s4 with next := upd s4.next plugin (some pv) }
  match n with
  | some nv => { s5 with prev := upd s5.prev nv (some pv) }
  | none => { s5 with chain_end := some pv }

/-- The relink writes of the `down` branch of `vst2_process_move_plugin`,
with `nv = n = plugin->next` already known non-nil:
`p->next = n` or `chain = n`; `n->prev = p`; `n->next = plugin`;
`plugin->prev = n`; `plugin->next = nn`; `nn->prev = plugin` or
`chain_end = plugin`. -/
def move_down_relink (s : PState) (plugin nv : Nat) : PState :=
  let p := s.prev plugin
  let nn := s.next nv
  let s1 := match p with
    | some pv => { s with next := upd s.next pv (some nv) }
    | none => { s with chain := some nv }
  let s2 := { s1 with prev := upd s1.prev nv p }
  let s3 := { s2 with next := upd s2.next nv (some plugin) }
  let s4 := { s3 with prev := upd s3.prev plugin (some nv) }
  let s5 := { s4 with next := upd s4.next plugin nn }
  match nn with
  | some nnv => { s5 with prev := upd s5.prev nnv (some plugin) }
  | none => { s5 with chain_end := some plugin }

/-- `vst2_process_move_plugin`: an `up` request on a node with no
predecessor, or a `down` request on a node with no successor, returns
without any write; otherwise relink and run the aux-port stage. -/
def vst2_process_move_plugin (env : Vst2Env) (s : PState) (plugin : Nat)
    (up : Bool) : PState :=
  if up then
    match s.prev plugin with
    | none => s
    | some pv => vst2_move_aux_swap env (move_up_relink s plugin pv) plugin true
  else
    match s.next plugin with
    | none => s
    | some nv => vst2_move_aux_swap env (move_down_relink s plugin nv) plugin false

/-- The pointer-splicing stage of `vst2_process_change_plugin`:
`new_plugin->next = plugin->next`; `new_plugin->prev = plugin->prev`;
`plugin->prev->next = new_plugin` or `chain = new_plugin`;
`plugin->next->prev = new_plugin` or `chain_end = new_plugin`. -/
def change_links (s : PState) (plugin new_plugin : Nat) : PState :=
  let s1 := { s with next := upd s.next new_plugin (s.next plugin) }
  let s2 := { s1 with prev := upd s1.prev new_plugin (s1.prev plugin) }
  let s3 := match s2.prev plugin with
    | some pr => { s2 with next := upd s2.next pr (some new_plugin) }
    | none => { s2 with chain := some new_plugin }
  match s3.next plugin with
  | some nx => { s3 with prev := upd s3.prev nx (some new_plugin) }
  | none => { s3 with chain_end := some new_plugin }

/-- `vst2_process_change_plugin`: splice `new_plugin` into `plugin`'s
position, run the same downstream aux-port loop as removal, and return the
displaced node. -/
def vst2_process_change_plugin (env : Vst2Env) (s : PState) (plugin new_plugin : Nat)
    (fuel : Nat) : PState × Nat :=
  let s4 := change_links s plugin new_plugin
  let s5 := if env.jack_client = true ∧ 0 < env.aux_channels plugin
    then vst2_aux_swap_downstream env plugin fuel (s4.next plugin) s4
    else s4
  (s5, plugin)

/-- Traversal of a link field `f` from a cursor, with fuel. -/
def traverseLinks (f : Nat → Option Nat) : Nat → Option Nat → List Nat
  | 0, _ => []
  | _ + 1, none => []
  | fuel + 1, some x => x :: traverseLinks f fuel (f x)

/-- Traversal of `next` links down from a cursor. -/
def traverseNext (s : PState) : Nat → Option Nat → List Nat :=
  traverseLinks s.next

/-- Traversal of `prev` links up from a cursor. -/
def traversePrev (s : PState) : Nat → Option Nat → List Nat :=
  traverseLinks s.prev

/-- `linkSeg f cur l stop`: starting at cursor `cur`, the link field `f`
spells out exactly the nodes of `l` in order and then lands on `stop`. -/
def linkSeg (f : Nat → Option Nat) : Option Nat → List Nat → Option Nat → Prop
  | cur, [], stop => cur = stop
  | cur, x :: xs, stop => cur = some x ∧ linkSeg f (f x) xs stop

/-- The chain of `s` is exactly the duplicate-free list `l`: following
`next` from the head visits `l` then nil, and following `prev` from the
tail visits `l` reversed then nil. -/
def represents (s : PState) (l : List Nat) : Prop :=
  linkSeg s.next s.chain l none ∧ linkSeg s.prev s.chain_end l.reverse none ∧ l.Nodup

/-- The chain states reachable from an empty context by the four
topology-manager operations, each applied under its caller contract
(appended / replacement nodes are not in the chain, removed / moved /
replaced nodes are), paired with the node list they should produce. -/
inductive Reachable : PState → List Nat → Prop where
  | empty : Reachable emptyState []
  | add (s : PState) (l : List Nat) (p : Nat) :
      Reachable s l → p ∉ l → Reachable (vst2_process_add_plugin s p) (l ++ [p])
  | remove (env : Vst2Env) (s : PState) (l1 l2 : List Nat) (p fuel : Nat) :
      Reachable s (l1 ++ p :: l2) →
      Reachable (vst2_process_remove_plugin env s p fuel).1 (l1 ++ l2)
  | move_up (env : Vst2Env) (s : PState) (l1 l2 : List Nat) (a p : Nat) :
      Reachable s (l1 ++ a :: p :: l2) →
      Reachable (vst2_process_move_plugin env s p true) (l1 ++ p :: a :: l2)
  | move_up_head (env : Vst2Env) (s : PState) (l : List Nat) (p : Nat) :
      Reachable s l → l.head? = some p →
      Reachable (vst2_process_move_plugin env s p true) l
  | move_down (env : Vst2Env) (s : PState) (l1 l2 : List Nat) (p b : Nat) :
      Reachable s (l1 ++ p :: b :: l2) →
      Reachable (vst2_process_move_plugin env s p false) (l1 ++ b :: p :: l2)
  | move_down_last (env : Vst2Env) (s : PState) (l : List Nat) (p : Nat) :
      Reachable s l → l.getLast? = some p →
      Reachable (vst2_process_move_plugin env s p false) l
  | change (env : Vst2Env) (s : PState) (l1 l2 : List Nat) (p q fuel : Nat) :
      Reachable s (l1 ++ p :: l2) → q ∉ l1 ++ p :: l2 →
      Reachable (vst2_process_change_plugin env s p q fuel).1 (l1 ++ q :: l2)

/-- The read-only part of an `AEffect` the holder code uses: the
`numInputs` and `numOutputs` counts entering the parameter-index
arithmetic. -/
structure AEffect where
  numInputs : Nat
  numOutputs : Nat

/-- The slice of `vst2_plugin_desc_t` consumed here, with the two external
descriptor queries (`vst2_plugin_desc_get_default_control_value` and
`vst2_plugin_desc_get_copies`) carried as read-only functions.  `effect` is
`none` when the entry point is unresolvable (`desc->effect == NULL`).
Control values are modelled as rationals. -/
structure Vst2PluginDesc where
  id : Nat
  effect : Option AEffect
  index : Nat
  channels : Nat
  aux_channels : Nat
  control_port_count : Nat
  status_port_count : Nat
  control_port_indicies : Nat → Nat
  default_control_value : Nat → Nat → ℚ
  copies_of : Nat → Nat

/-- The observable result of `vst2_plugin_init_holder` for one copy: the
`control_memory` parameter mirror, and the ordered list of
`effect->setParameter(effect, index, value)` calls it issued. -/
structure Vst2Holder where
  control_memory : List ℚ
  set_parameter_calls : List (Int × ℚ)

/-- `vst2_plugin_init_holder`: seed each `control_memory[i]` with the
descriptor's default for `control_port_indicies[i]` at the sample rate and
push it via `setParameter`; then — guarded only by `control_memory` being
non-null — a second loop bounded by `status_port_count` pushes
`control_memory[i]` for `control_port_indicies[i]` again (the out-of-range
read when `status_port_count > control_port_count` is modelled by
`List.getD` with default 0). -/
def vst2_plugin_init_holder (desc : Vst2PluginDesc) (eff : AEffect) (rate : Nat) :
    Vst2Holder :=
  let base : Int := (eff.numInputs : Int) + (eff.numOutputs : Int)
  let mem := (List.range desc.control_port_count).map
    (fun i => desc.default_control_value (desc.control_port_indicies i) rate)
  let controlCalls := (List.range desc.control_port_count).map
    (fun i => ((desc.control_port_indicies i : Int) - base, mem.getD i 0))
  let statusLoopCalls := if 0 < desc.control_port_count then
      (List.range desc.status_port_count).map
        (fun i => ((desc.control_port_indicies i : Int) - base, mem.getD i 0))
    else []
  { control_memory := mem, set_parameter_calls := controlCalls ++ statusLoopCalls }

/-- The fields of `vst2_plugin_t` filled in by `vst2_plugin_new` that the
claims observe.  The audio buffers and fifos are allocated with
uninitialized contents, so only `wet_dry_values` (explicitly set to 1.0 per
channel) is carried. -/
structure Vst2Plugin where
  desc : Vst2PluginDesc
  copies : Nat
  enabled : Bool
  wet_dry_enabled : Bool
  wet_dry_values : List ℚ
  holders : List Vst2Holder
  prev : Option Nat
  next : Option Nat

/-- `vst2_plugin_open_plugin`: with all the dlopen machinery commented out,
it returns `desc->effect`, failing exactly when that is null. -/
def vst2_plugin_open_plugin (desc : Vst2PluginDesc) : Option AEffect :=
  desc.effect

/-- `vst2_plugin_instantiate`: every copy is the same `desc->effect`
pointer (the failure branch is commented out, so it always succeeds). -/
def vst2_plugin_instantiate (eff : AEffect) (copies : Nat) : Option (List AEffect) :=
  some (List.replicate copies eff)

/-- A heap event of `vst2_plugin_new`; tags: 0 = the `effects` array,
1 = the plugin record, 2 = `audio_output_memory`, 3 = `wet_dry_fifos`,
4 = `wet_dry_values`, 5 = one per-channel audio buffer, 6 = the `holders`
array (holder-internal allocations happen inside `vst2_plugin_init_holder`
and are not traced). -/
inductive MemEvent where
  | alloc (tag : Nat)
  | free (tag : Nat)
deriving DecidableEq

/-- Every allocation in the trace has been matched by a free. -/
def balancedEvents (evs : List MemEvent) : Prop :=
  ∀ t, evs.count (MemEvent.alloc t) = evs.count (MemEvent.free t)

/-- `vst2_plugin_new`: open the plugin (fails iff `desc->effect` is null,
before anything is allocated), instantiate `copies` effects (frees the
`effects` array again on the — unreachable — failure branch), then build
the plugin record: flags start false, links null, wet/dry mix 1.0 per
channel, one holder per copy.  The second component is the heap-event
trace. -/
def vst2_plugin_new (desc : Vst2PluginDesc) (channels rate : Nat) :
    Option Vst2Plugin × List MemEvent :=
  match vst2_plugin_open_plugin desc with
  | none => (none, [])
  | some eff =>
    let copies := desc.copies_of channels
    match vst2_plugin_instantiate eff copies with
    | none => (none, [MemEvent.alloc 0, MemEvent.free 0])
    | some effs =>
      (some { desc := desc
              copies := copies
              enabled := false
              wet_dry_enabled := false
              wet_dry_values := (List.range channels).map (fun _ => (1 : ℚ))
              holders := (List.range copies).map
                (fun i => vst2_plugin_init_holder desc (effs.getD i eff) rate)
              prev := none
              next := none },
       [MemEvent.alloc 0, MemEvent.alloc 1, MemEvent.alloc 2, MemEvent.alloc 3,
        MemEvent.alloc 4]
         ++ (List.range channels).map (fun _ => MemEvent.alloc 5)
         ++ [MemEvent.alloc 6])

/-- An environment with the jack client active where every node shares one
descriptor `id`, one aux channel and one copy. -/
def envW : Vst2Env :=
  { jack_client := true
    descId := fun _ => 7
    aux_channels := fun _ => 1
    copies := fun _ => 1 }

/-- A concrete three-node chain 1-2-3 where node `n` holds aux port handle
`n` in its single copy. -/
def sW3 : PState :=
  { chain := some 1
    chain_end := some 3
    next := fun n => if n = 1 then some 2 else if n = 2 then some 3 else none
    prev := fun n => if n = 3 then some 2 else if n = 2 then some 1 else none
    aux := fun n _ => n }

/-- The two-node chain obtained by appending 1 then 2 to an empty
context. -/
def sW2 : PState :=
  vst2_process_add_plugin (vst2_process_add_plugin emptyState 1) 2

/-- A descriptor with one control port (index 5, default 7) and one status
port, exhibiting the duplicated default push of
`vst2_plugin_init_holder`. -/
def descC3 : Vst2PluginDesc :=
  { id := 11
    effect := some { numInputs := 2, numOutputs := 1 }
    index := 0
    channels := 1
    aux_channels := 0
    control_port_count := 1
    status_port_count := 1
    control_port_indicies := fun _ => 5
    default_control_value := fun _ _ => 7
    copies_of := fun _ => 1 }

/-- A descriptor whose plugin entry point is unresolvable
(`desc->effect == NULL`). -/
def descNoEffect : Vst2PluginDesc :=
  { descC3 with effect := none }

/-- The node `vst2_plugin_new` builds from `descC3` with two channels at
sample rate 48000. -/
def pluginW : Vst2Plugin :=
  { desc := descC3
    copies := 1
    enabled := false
    wet_dry_enabled := false
    wet_dry_values := [1, 1]
    holders := [vst2_plugin_init_holder descC3 { numInputs := 2, numOutputs := 1 } 48000]
    prev := none
    next := none }

instance linkSegDecidable (f : Nat → Option Nat) :
    ∀ (cur : Option Nat) (l : List Nat) (stop : Option Nat),
      Decidable (linkSeg f cur l stop)
  | cur, [], stop => decEq cur stop
  | cur, x :: xs, stop =>
    @instDecidableAnd _ _ (decEq cur (some x))
      (linkSegDecidable f (f x) xs stop)

instance representsDecidable (s : PState) (l : List Nat) :
    Decidable (represents s l) :=
  @instDecidableAnd _ _ (linkSegDecidable s.next s.chain l none)
    (@instDecidableAnd _ _ (linkSegDecidable s.prev s.chain_end l.reverse none)
      (List.nodupDecidable l))

@[simp]
theorem upd_same (f : Nat → Option Nat) (x : Nat) (v : Option Nat) :
    upd f x v x = v := by
  simp [upd]

@[simp]
theorem upd_ne (f : Nat → Option Nat) (x : Nat) (v : Option Nat) {y : Nat}
    (h : y ≠ x) : upd f x v y = f y := by
  simp [upd, h]

@[simp]
theorem linkSeg_nil {f : Nat → Option Nat} {cur stop : Option Nat} :
    linkSeg f cur [] stop ↔ cur = stop :=
  Iff.rfl

@[simp]
theorem linkSeg_cons {f : Nat → Option Nat} {cur stop : Option Nat} {x : Nat}
    {xs : List Nat} :
    linkSeg f cur (x :: xs) stop ↔ cur = some x ∧ linkSeg f (f x) xs stop :=
  Iff.rfl

theorem linkSeg_append {f : Nat → Option Nat} {l1 l2 : List Nat}
    {cur stop : Option Nat} :
    linkSeg f cur (l1 ++ l2) stop ↔
      ∃ mid, linkSeg f cur l1 mid ∧ linkSeg f mid l2 stop := by
  induction l1 generalizing cur with
  | nil => simp
  | cons x xs ih =>
    simp only [List.cons_append, linkSeg_cons, ih]
    constructor
    · rintro ⟨h1, mid, h2, h3⟩
      exact ⟨mid, ⟨h1, h2⟩, h3⟩
    · rintro ⟨mid, ⟨h1, h2⟩, h3⟩
      exact ⟨h1, mid, h2, h3⟩

theorem linkSeg_congr {f g : Nat → Option Nat} {l : List Nat}
    (h : ∀ x ∈ l, f x = g x) :
    ∀ {cur stop : Option Nat}, linkSeg f cur l stop ↔ linkSeg g cur l stop := by
  induction l with
  | nil => intro cur stop; exact Iff.rfl
  | cons x xs ih =>
    intro cur stop
    rw [linkSeg_cons, linkSeg_cons, h x (List.mem_cons_self x xs),
      ih (fun y hy => h y (List.mem_cons_of_mem x hy))]

theorem linkSeg_head {f : Nat → Option Nat} {cur : Option Nat} {l : List Nat}
    (h : linkSeg f cur l none) : cur = l.head? := by
  cases l with
  | nil => exact h
  | cons x xs => exact h.1

theorem traverseLinks_eq {f : Nat → Option Nat} {l : List Nat} :
    ∀ {cur : Option Nat}, linkSeg f cur l none →
      traverseLinks f l.length cur = l := by
  induction l with
  | nil =>
    intro cur h
    rw [linkSeg_nil] at h
    subst h
    rfl
  | cons x xs ih =>
    intro cur h
    obtain ⟨h1, h2⟩ := h
    subst h1
    simpa [traverseLinks] using ih h2

theorem reverse_mid (l1 l2 : List Nat) (p : Nat) :
    (l1 ++ p :: l2).reverse = l2.reverse ++ p :: l1.reverse := by
  simp

theorem represents_chain {s : PState} {l : List Nat} (h : represents s l) :
    s.chain = l.head? :=
  linkSeg_head h.1

theorem represents_chain_end {s : PState} {l : List Nat} (h : represents s l) :
    s.chain_end = l.getLast? := by
  have := linkSeg_head h.2.1
  rwa [List.head?_reverse] at this

theorem represents_split {s : PState} {l1 l2 : List Nat} {p : Nat}
    (h : represents s (l1 ++ p :: l2)) :
    linkSeg s.next s.chain l1 (some p)
    ∧ linkSeg s.next (s.next p) l2 none
    ∧ linkSeg s.prev s.chain_end l2.reverse (some p)
    ∧ linkSeg s.prev (s.prev p) l1.reverse none
    ∧ s.next p = l2.head?
    ∧ s.prev p = l1.getLast? := by
  obtain ⟨hn, hv, _⟩ := h
  rw [linkSeg_append] at hn
  obtain ⟨mid, hn1, hn2⟩ := hn
  obtain ⟨hmid, hn3⟩ := hn2
  subst hmid
  rw [reverse_mid, linkSeg_append] at hv
  obtain ⟨mid1, hv1, hv2⟩ := hv
  obtain ⟨hmid1, hv3⟩ := hv2
  subst hmid1
  refine ⟨hn1, hn3, hv1, hv3, linkSeg_head hn3, ?_⟩
  have := linkSeg_head hv3
  rwa [List.head?_reverse] at this

theorem swap_loop_links (plugin other k : Nat) (s : PState) :
    (vst2_plugin_swap_aux_ports_loop plugin other k s).chain = s.chain
    ∧ (vst2_plugin_swap_aux_ports_loop plugin other k s).chain_end = s.chain_end
    ∧ (vst2_plugin_swap_aux_ports_loop plugin other k s).next = s.next
    ∧ (vst2_plugin_swap_aux_ports_loop plugin other k s).prev = s.prev := by
  induction k with
  | zero => exact ⟨rfl, rfl, rfl, rfl⟩
  | succ k ih => simpa [vst2_plugin_swap_aux_ports_loop] using ih

theorem swap_loop_aux_frame (plugin other : Nat) (k : Nat) (s : PState)
    (n c : Nat) (h : (n ≠ plugin ∧ n ≠ other) ∨ k ≤ c) :
    (vst2_plugin_swap_aux_ports_loop plugin other k s).aux n c = s.aux n c := by
  induction k with
  | zero => rfl
  | succ k ih =>
    have hk : (n ≠ plugin ∧ n ≠ other) ∨ k ≤ c := by
      rcases h with h | h
      · exact Or.inl h
      · exact Or.inr (Nat.le_of_succ_le h)
    have hnotk : ¬(n = plugin ∧ c = k) ∧ ¬(n = other ∧ c = k) := by
      rcases h with ⟨h1, h2⟩ | h
      · exact ⟨fun hh => h1 hh.1, fun hh => h2 hh.1⟩
      · constructor <;> rintro ⟨-, rfl⟩ <;> omega
    simp only [vst2_plugin_swap_aux_ports_loop, upd2, hnotk.1, hnotk.2, if_false]
    exact ih hk

theorem swap_loop_aux_plugin (plugin other : Nat) (hpo : plugin ≠ other)
    (k : Nat) (s : PState) :
    ∀ c, c < k →
      (vst2_plugin_swap_aux_ports_loop plugin other k s).aux plugin c
        = s.aux other c := by
  induction k with
  | zero => intro c hc; omega
  | succ k ih =>
    intro c hc
    show upd2 (upd2 (vst2_plugin_swap_aux_ports_loop plugin other k s).aux other k
        ((vst2_plugin_swap_aux_ports_loop plugin other k s).aux plugin k)) plugin k
        ((vst2_plugin_swap_aux_ports_loop plugin other k s).aux other k) plugin c
      = s.aux other c
    unfold upd2
    by_cases hck : c = k
    · subst hck
      rw [if_pos ⟨rfl, rfl⟩]
      exact swap_loop_aux_frame plugin other c s other c (Or.inr le_rfl)
    · rw [if_neg (fun hh => hck hh.2), if_neg (fun hh => hpo hh.1)]
      exact ih c (by omega)

theorem swap_loop_aux_other (plugin other : Nat) (hpo : plugin ≠ other)
    (k : Nat) (s : PState) :
    ∀ c, c < k →
      (vst2_plugin_swap_aux_ports_loop plugin other k s).aux other c
        = s.aux plugin c := by
  induction k with
  | zero => intro c hc; omega
  | succ k ih =>
    intro c hc
    show upd2 (upd2 (vst2_plugin_swap_aux_ports_loop plugin other k s).aux other k
        ((vst2_plugin_swap_aux_ports_loop plugin other k s).aux plugin k)) plugin k
        ((vst2_plugin_swap_aux_ports_loop plugin other k s).aux other k) other c
      = s.aux plugin c
    unfold upd2
    rw [if_neg (fun hh => hpo hh.1.symm)]
    by_cases hck : c = k
    · subst hck
      rw [if_pos ⟨rfl, rfl⟩]
      exact swap_loop_aux_frame plugin other c s plugin c (Or.inr le_rfl)
    · rw [if_neg (fun hh => hck hh.2)]
      exact ih c (by omega)

theorem swap_ports_links (env : Vst2Env) (s : PState) (plugin other : Nat) :
    (vst2_plugin_swap_aux_ports env s plugin other).chain = s.chain
    ∧ (vst2_plugin_swap_aux_ports env s plugin other).chain_end = s.chain_end
    ∧ (vst2_plugin_swap_aux_ports env s plugin other).next = s.next
    ∧ (vst2_plugin_swap_aux_ports env s plugin other).prev = s.prev :=
  swap_loop_links plugin other (env.copies plugin) s

theorem downstream_links (env : Vst2Env) (plugin : Nat) :
    ∀ (fuel : Nat) (cur : Option Nat) (s : PState),
      (vst2_aux_swap_downstream env plugin fuel cur s).chain = s.chain
      ∧ (vst2_aux_swap_downstream env plugin fuel cur s).chain_end = s.chain_end
      ∧ (vst2_aux_swap_downstream env plugin fuel cur s).next = s.next
      ∧ (vst2_aux_swap_downstream env plugin fuel cur s).prev = s.prev := by
  intro fuel
  induction fuel with
  | zero => exact fun cur s => ⟨rfl, rfl, rfl, rfl⟩
  | succ fuel ih =>
    intro cur s
    cases cur with
    | none => exact ⟨rfl, rfl, rfl, rfl⟩
    | some other =>
      by_cases hid : env.descId other = env.descId plugin
      · have hs := swap_ports_links env s plugin other
        have hrec := ih ((vst2_plugin_swap_aux_ports env s plugin other).next other)
          (vst2_plugin_swap_aux_ports env s plugin other)
        simp only [vst2_aux_swap_downstream, hid, if_true]
        exact ⟨hrec.1.trans hs.1, hrec.2.1.trans hs.2.1,
          hrec.2.2.1.trans hs.2.2.1, hrec.2.2.2.trans hs.2.2.2⟩
      · have hrec := ih (s.next other) s
        simpa only [vst2_aux_swap_downstream, hid, if_false] using hrec

theorem move_aux_swap_links (env : Vst2Env) (s : PState) (plugin : Nat) (up : Bool) :
    (vst2_move_aux_swap env s plugin up).chain = s.chain
    ∧ (vst2_move_aux_swap env s plugin up).chain_end = s.chain_end
    ∧ (vst2_move_aux_swap env s plugin up).next = s.next
    ∧ (vst2_move_aux_swap env s plugin up).prev = s.prev := by
  unfold vst2_move_aux_swap
  by_cases hj : env.jack_client = true ∧ 0 < env.aux_channels plugin
  · rw [if_pos hj]
    cases hcur : (if up then s.next plugin else s.prev plugin) with
    | none => exact ⟨rfl, rfl, rfl, rfl⟩
    | some other =>
      dsimp only
      by_cases hid : env.descId other = env.descId plugin
      · rw [if_pos hid]
        exact swap_ports_links env s plugin other
      · rw [if_neg hid]
        exact ⟨rfl, rfl, rfl, rfl⟩
  · rw [if_neg hj]
    exact ⟨rfl, rfl, rfl, rfl⟩

theorem represents_ext {s t : PState} (hc : t.chain = s.chain)
    (he : t.chain_end = s.chain_end) (hn : ∀ x, t.next x = s.next x)
    (hp : ∀ x, t.prev x = s.prev x) (l : List Nat) :
    represents t l ↔ represents s l := by
  unfold represents
  rw [hc, he, linkSeg_congr (fun x _ => hn x), linkSeg_congr (fun x _ => hp x)]

theorem add_shape_nil {s : PState} {p : Nat} (hce : s.chain_end = none) :
    vst2_process_add_plugin s p =
      { chain := some p
        chain_end := some p
        next := upd s.next p none
        prev := upd s.prev p none
        aux := s.aux } := by
  unfold vst2_process_add_plugin
  dsimp only
  rw [hce]

theorem add_shape_concat {s : PState} {p e : Nat} (hce : s.chain_end = some e) :
    vst2_process_add_plugin s p =
      { chain := s.chain
        chain_end := some p
        next := upd (upd s.next p none) e (some p)
        prev := upd s.prev p (some e)
        aux := s.aux } := by
  unfold vst2_process_add_plugin
  dsimp only
  rw [hce]

theorem remove_links_shape_nn {s : PState} {p : Nat} (hpv : s.prev p = none)
    (hnx : s.next p = none) :
    remove_links s p = { s with chain := none, chain_end := none } := by
  unfold remove_links
  rw [hpv]
  dsimp only
  rw [hnx]
  dsimp only
  rw [hpv]

theorem remove_links_shape_nb {s : PState} {p b : Nat} (hpv : s.prev p = none)
    (hnx : s.next p = some b) :
    remove_links s p =
      { s with chain := some b, prev := upd s.prev b none } := by
  unfold remove_links
  rw [hpv]
  dsimp only
  rw [hnx]
  dsimp only
  rw [hpv]

theorem remove_links_shape_an {s : PState} {p a : Nat} (hpv : s.prev p = some a)
    (hnx : s.next p = none) (hpa : p ≠ a) :
    remove_links s p =
      { s with chain_end := some a, next := upd s.next a none } := by
  unfold remove_links
  rw [hpv]
  dsimp only
  rw [upd_ne _ _ _ hpa, hnx]
  dsimp only
  rw [hpv]

theorem remove_links_shape_ab {s : PState} {p a b : Nat} (hpv : s.prev p = some a)
    (hnx : s.next p = some b) (hpa : p ≠ a) :
    remove_links s p =
      { s with
        next := upd s.next a (some b)
        prev := upd s.prev b (some a) } := by
  unfold remove_links
  rw [hpv]
  dsimp only
  rw [upd_ne _ _ _ hpa, hnx]
  dsimp only
  rw [hpv]

theorem remove_to_links (env : Vst2Env) (fuel : Nat) (s : PState) (p : Nat)
    (l : List Nat) :
    represents (vst2_process_remove_plugin env s p fuel).1 l ↔
      represents (remove_links s p) l := by
  unfold vst2_process_remove_plugin
  dsimp only
  by_cases hj : env.jack_client = true ∧ 0 < env.aux_channels p
  · rw [if_pos hj]
    have hdl := downstream_links env p fuel ((remove_links s p).next p)
      (remove_links s p)
    exact represents_ext hdl.1 hdl.2.1 (fun x => congrFun hdl.2.2.1 x)
      (fun x => congrFun hdl.2.2.2 x) l
  · rw [if_neg hj]

theorem remove_links_represents {s : PState} {l1 l2 : List Nat} {p : Nat}
    (h : represents s (l1 ++ p :: l2)) :
    represents (remove_links s p) (l1 ++ l2) := by
  obtain ⟨hn1, hn2, hv1, hv2, hnxP, hpvP⟩ := represents_split h
  have hnd := h.2.2
  rw [List.nodup_append, List.nodup_cons] at hnd
  obtain ⟨hd1, ⟨hp2, hd2⟩, hdisj⟩ := hnd
  have hp1 : p ∉ l1 := fun hh => hdisj hh (List.mem_cons_self p l2)
  have hndgoal : (l1 ++ l2).Nodup := by
    rw [List.nodup_append]
    exact ⟨hd1, hd2, fun x hx hy => hdisj hx (List.mem_cons_of_mem p hy)⟩
  rcases List.eq_nil_or_concat l1 with rfl | ⟨l1', a, rfl⟩
  · cases l2 with
    | nil =>
      rw [remove_links_shape_nn hpvP hnxP]
      simp [represents]
    | cons b l2' =>
      rw [remove_links_shape_nb hpvP hnxP]
      have hbl2' : b ∉ l2' := (List.nodup_cons.mp hd2).1
      refine ⟨?_, ?_, hndgoal⟩
      · rw [hnxP, List.head?_cons] at hn2
        exact hn2
      · have hrev : (([] : List Nat) ++ b :: l2').reverse = l2'.reverse ++ [b] := by
          simp
        rw [hrev]
        have hrev1 : (b :: l2').reverse = l2'.reverse ++ [b] := by simp
        rw [hrev1, linkSeg_append] at hv1
        obtain ⟨mid, hvA, hvB⟩ := hv1
        simp only [linkSeg_cons, linkSeg_nil] at hvB
        obtain ⟨hmid, -⟩ := hvB
        subst hmid
        rw [linkSeg_append]
        refine ⟨some b, ?_, ⟨rfl, ?_⟩⟩
        · refine (linkSeg_congr ?_).mpr hvA
          intro x hx
          exact upd_ne _ _ _ (fun hh => hbl2' (hh ▸ (List.mem_reverse.mp hx)))
        · show linkSeg (upd s.prev b none) (upd s.prev b none b) [] none
          rw [upd_same]
          rfl
  · simp only [List.concat_eq_append] at hn1 hv2 hpvP hp1 hd1 hdisj hndgoal ⊢
    have hpv : s.prev p = some a := by
      rw [hpvP, List.getLast?_concat]
    have hpa : p ≠ a := fun hh => hp1 (by simp [hh])
    have hal1' : a ∉ l1' := by
      rw [List.nodup_append] at hd1
      exact fun hh => hd1.2.2 hh (List.mem_singleton_self a)
    rw [linkSeg_append] at hn1
    obtain ⟨mid, hnA, hnB⟩ := hn1
    simp only [linkSeg_cons, linkSeg_nil] at hnB
    obtain ⟨hmid, hna⟩ := hnB
    subst hmid
    have hrevl1 : (l1' ++ [a]).reverse = a :: l1'.reverse := by simp
    rw [hrevl1, hpv] at hv2
    obtain ⟨-, hv2tail⟩ := hv2
    cases l2 with
    | nil =>
      rw [remove_links_shape_an hpv hnxP hpa]
      rw [List.append_nil]
      refine ⟨?_, ?_, ?_⟩
      · rw [linkSeg_append]
        refine ⟨some a, ?_, ⟨rfl, ?_⟩⟩
        · refine (linkSeg_congr ?_).mpr hnA
          intro x hx
          exact upd_ne _ _ _ (fun hh => hal1' (hh ▸ hx))
        · show linkSeg (upd s.next a none) (upd s.next a none a) [] none
          rw [upd_same]
          rfl
      · rw [hrevl1]
        exact ⟨rfl, hv2tail⟩
      · simpa using hd1
    | cons b l2' =>
      have hab : a ≠ b := by
        intro hh
        subst hh
        exact hdisj (List.mem_append_right l1' (List.mem_singleton_self a))
          (List.mem_cons_of_mem p (List.mem_cons_self a l2'))
      have hbl2' : b ∉ l2' := (List.nodup_cons.mp hd2).1
      rw [remove_links_shape_ab hpv hnxP hpa]
      refine ⟨?_, ?_, hndgoal⟩
      · rw [linkSeg_append]
        refine ⟨some b, ?_, ?_⟩
        · rw [linkSeg_append]
          refine ⟨some a, ?_, ⟨rfl, ?_⟩⟩
          · refine (linkSeg_congr ?_).mpr hnA
            intro x hx
            exact upd_ne _ _ _ (fun hh => hal1' (hh ▸ hx))
          · show linkSeg (upd s.next a (some b)) (upd s.next a (some b) a) []
              (some b)
            rw [upd_same]
            rfl
        · rw [hnxP, List.head?_cons] at hn2
          refine (linkSeg_congr ?_).mpr hn2
          intro x hx
          refine upd_ne _ _ _ ?_
          intro hh
          subst hh
          exact hdisj (List.mem_append_right l1' (List.mem_singleton_self x))
            (List.mem_cons_of_mem p hx)
      · have hrevg : ((l1' ++ [a]) ++ b :: l2').reverse
            = (l2'.reverse ++ [b]) ++ a :: l1'.reverse := by simp
        rw [hrevg]
        have hrev1 : (b :: l2').reverse = l2'.reverse ++ [b] := by simp
        rw [hrev1, linkSeg_append] at hv1
        obtain ⟨mid, hvA, hvB⟩ := hv1
        simp only [linkSeg_cons, linkSeg_nil] at hvB
        obtain ⟨hmid, -⟩ := hvB
        subst hmid
        rw [linkSeg_append]
        refine ⟨some a, ?_, ?_⟩
        · rw [linkSeg_append]
          refine ⟨some b, ?_, ⟨rfl, ?_⟩⟩
          · refine (linkSeg_congr ?_).mpr hvA
            intro x hx
            exact upd_ne _ _ _ (fun hh => hbl2' (hh ▸ (List.mem_reverse.mp hx)))
          · show linkSeg (upd s.prev b (some a)) (upd s.prev b (some a) b) []
              (some a)
            rw [upd_same]
            rfl
        · refine ⟨rfl, ?_⟩
          show linkSeg (upd s.prev b (some a)) (upd s.prev b (some a) a)
            l1'.reverse none
          rw [upd_ne _ _ _ hab]
          refine (linkSeg_congr ?_).mpr hv2tail
          intro x hx
          refine upd_ne _ _ _ ?_
          intro hh
          subst hh
          exact hdisj (List.mem_append_left [a] (List.mem_reverse.mp hx))
            (List.mem_cons_of_mem p (List.mem_cons_self x l2'))

theorem add_represents {s : PState} {l : List Nat} {p : Nat}
    (h : represents s l) (hp : p ∉ l) :
    represents (vst2_process_add_plugin s p) (l ++ [p]) := by
  obtain ⟨hn, hv, hd⟩ := h
  rcases List.eq_nil_or_concat l with rfl | ⟨l', e, rfl⟩
  · have hce : s.chain_end = none := hv
    rw [add_shape_nil hce]
    simp [represents]
  · rw [List.concat_eq_append] at hp hn hv hd ⊢
    have hrev : (l' ++ [e]).reverse = e :: l'.reverse := by simp
    rw [hrev] at hv
    obtain ⟨hce, hvtail⟩ := hv
    rw [linkSeg_append] at hn
    obtain ⟨mid, hn1, hn2⟩ := hn
    simp only [linkSeg_cons, linkSeg_nil] at hn2
    obtain ⟨hmid, hne⟩ := hn2
    subst hmid
    have hpe : p ≠ e := by
      intro hh
      exact hp (by simp [hh])
    have hpl : p ∉ l' := fun hh => hp (by simp [hh])
    have hel : e ∉ l' := by
      rw [List.nodup_append] at hd
      intro hh
      exact hd.2.2 hh (List.mem_singleton_self e)
    rw [add_shape_concat hce]
    refine ⟨?_, ?_, ?_⟩
    · rw [linkSeg_append]
      refine ⟨some p, ?_, ?_⟩
      · rw [linkSeg_append]
        refine ⟨some e, ?_, ⟨rfl, ?_⟩⟩
        · refine (linkSeg_congr ?_).mpr hn1
          intro x hx
          have hxe : x ≠ e := fun hh => hel (hh ▸ hx)
          have hxp : x ≠ p := fun hh => hpl (hh ▸ hx)
          show upd (upd s.next p none) e (some p) x = s.next x
          rw [upd_ne _ _ _ hxe, upd_ne _ _ _ hxp]
        · show linkSeg (upd (upd s.next p none) e (some p))
            (upd (upd s.next p none) e (some p) e) [] (some p)
          rw [upd_same]
          rfl
      · refine ⟨rfl, ?_⟩
        show linkSeg (upd (upd s.next p none) e (some p))
          (upd (upd s.next p none) e (some p) p) [] none
        rw [upd_ne _ _ _ hpe, upd_same]
        rfl
    · have hrev2 : ((l' ++ [e]) ++ [p]).reverse = p :: e :: l'.reverse := by simp
      rw [hrev2]
      refine ⟨rfl, ?_⟩
      show linkSeg (upd s.prev p (some e)) (upd s.prev p (some e) p)
        (e :: l'.reverse) none
      rw [upd_same]
      refine ⟨rfl, ?_⟩
      show linkSeg (upd s.prev p (some e)) (upd s.prev p (some e) e)
        l'.reverse none
      rw [upd_ne _ _ _ (fun hh => hpe hh.symm)]
      refine (linkSeg_congr ?_).mpr hvtail
      intro x hx
      have hxp : x ≠ p := fun hh => hpl (hh ▸ (List.mem_reverse.mp hx))
      show upd s.prev p (some e) x = s.prev x
      rw [upd_ne _ _ _ hxp]
    · refine hd.append (List.nodup_singleton p) ?_
      intro x hx hx'
      rw [List.mem_singleton] at hx'
      subst hx'
      exact hp hx

theorem change_links_shape_nn {s : PState} {p q : Nat} (hpv : s.prev p = none)
    (hnx : s.next p = none) (hpq : p ≠ q) :
    change_links s p q =
      { s with
        chain := some q
        chain_end := some q
        next := upd s.next q none
        prev := upd s.prev q none } := by
  unfold change_links
  dsimp only
  rw [upd_ne _ _ _ hpq, hpv]
  dsimp only
  rw [upd_ne _ _ _ hpq, hnx]

theorem change_links_shape_nb {s : PState} {p q b : Nat} (hpv : s.prev p = none)
    (hnx : s.next p = some b) (hpq : p ≠ q) :
    change_links s p q =
      { s with
        chain := some q
        next := upd s.next q (some b)
        prev := upd (upd s.prev q none) b (some q) } := by
  unfold change_links
  dsimp only
  rw [upd_ne _ _ _ hpq, hpv]
  dsimp only
  rw [upd_ne _ _ _ hpq, hnx]

theorem change_links_shape_an {s : PState} {p q a : Nat} (hpv : s.prev p = some a)
    (hnx : s.next p = none) (hpq : p ≠ q) (hpa : p ≠ a) :
    change_links s p q =
      { s with
        chain_end := some q
        next := upd (upd s.next q none) a (some q)
        prev := upd s.prev q (some a) } := by
  unfold change_links
  dsimp only
  rw [upd_ne _ _ _ hpq, hpv]
  dsimp only
  rw [upd_ne _ _ _ hpa, upd_ne _ _ _ hpq, hnx]

theorem change_links_shape_ab {s : PState} {p q a b : Nat}
    (hpv : s.prev p = some a) (hnx : s.next p = some b) (hpq : p ≠ q)
    (hpa : p ≠ a) :
    change_links s p q =
      { s with
        next := upd (upd s.next q (some b)) a (some q)
        prev := upd (upd s.prev q (some a)) b (some q) } := by
  unfold change_links
  dsimp only
  rw [upd_ne _ _ _ hpq, hpv]
  dsimp only
  rw [upd_ne _ _ _ hpa, upd_ne _ _ _ hpq, hnx]

theorem change_to_links (env : Vst2Env) (fuel : Nat) (s : PState) (p q : Nat)
    (l : List Nat) :
    represents (vst2_process_change_plugin env s p q fuel).1 l ↔
      represents (change_links s p q) l := by
  unfold vst2_process_change_plugin
  dsimp only
  by_cases hj : env.jack_client = true ∧ 0 < env.aux_channels p
  · rw [if_pos hj]
    have hdl := downstream_links env p fuel ((change_links s p q).next p)
      (change_links s p q)
    exact represents_ext hdl.1 hdl.2.1 (fun x => congrFun hdl.2.2.1 x)
      (fun x => congrFun hdl.2.2.2 x) l
  · rw [if_neg hj]

theorem change_links_represents {s : PState} {l1 l2 : List Nat} {p q : Nat}
    (h : represents s (l1 ++ p :: l2)) (hq : q ∉ l1 ++ p :: l2) :
    represents (change_links s p q) (l1 ++ q :: l2) := by
  obtain ⟨hn1, hn2, hv1, hv2, hnxP, hpvP⟩ := represents_split h
  have hnd := h.2.2
  rw [List.nodup_append, List.nodup_cons] at hnd
  obtain ⟨hd1, ⟨hp2, hd2⟩, hdisj⟩ := hnd
  have hp1 : p ∉ l1 := fun hh => hdisj hh (List.mem_cons_self p l2)
  have hq1 : q ∉ l1 := fun hh => hq (List.mem_append_left _ hh)
  have hq2 : q ∉ l2 := fun hh =>
    hq (List.mem_append_right _ (List.mem_cons_of_mem p hh))
  have hpq : p ≠ q := fun hh =>
    hq (List.mem_append_right _ (by rw [← hh]; exact List.mem_cons_self p l2))
  have hndgoal : (l1 ++ q :: l2).Nodup := by
    rw [List.nodup_append, List.nodup_cons]
    refine ⟨hd1, ⟨hq2, hd2⟩, ?_⟩
    intro x hx hy
    rcases List.mem_cons.mp hy with rfl | hy2
    · exact hq1 hx
    · exact hdisj hx (List.mem_cons_of_mem p hy2)
  rcases List.eq_nil_or_concat l1 with rfl | ⟨l1', a, rfl⟩
  · cases l2 with
    | nil =>
      rw [change_links_shape_nn hpvP hnxP hpq]
      simp [represents]
    | cons b l2' =>
      have hqb : q ≠ b := fun hh =>
        hq2 (by rw [hh]; exact List.mem_cons_self b l2')
      have hbl2' : b ∉ l2' := (List.nodup_cons.mp hd2).1
      rw [change_links_shape_nb hpvP hnxP hpq]
      refine ⟨?_, ?_, hndgoal⟩
      · refine ⟨rfl, ?_⟩
        show linkSeg (upd s.next q (some b)) (upd s.next q (some b) q)
          (b :: l2') none
        rw [upd_same]
        rw [hnxP, List.head?_cons] at hn2
        refine (linkSeg_congr ?_).mpr hn2
        intro x hx
        exact upd_ne _ _ _ (fun hh => hq2 (hh ▸ hx))
      · have hrev : (([] : List Nat) ++ q :: b :: l2').reverse
            = (l2'.reverse ++ [b]) ++ [q] := by simp
        rw [hrev]
        have hrev1 : (b :: l2').reverse = l2'.reverse ++ [b] := by simp
        rw [hrev1, linkSeg_append] at hv1
        obtain ⟨mid, hvA, hvB⟩ := hv1
        simp only [linkSeg_cons, linkSeg_nil] at hvB
        obtain ⟨hmid, -⟩ := hvB
        subst hmid
        rw [linkSeg_append]
        refine ⟨some q, ?_, ⟨rfl, ?_⟩⟩
        · rw [linkSeg_append]
          refine ⟨some b, ?_, ⟨rfl, ?_⟩⟩
          · refine (linkSeg_congr ?_).mpr hvA
            intro x hx
            have hxl2' := List.mem_reverse.mp hx
            have hxb : x ≠ b := fun hh => hbl2' (hh ▸ hxl2')
            have hxq : x ≠ q := fun hh =>
              hq2 (by rw [← hh]; exact List.mem_cons_of_mem b hxl2')
            dsimp only
            rw [upd_ne _ _ _ hxb, upd_ne _ _ _ hxq]
          · show linkSeg _ (upd (upd s.prev q none) b (some q) b) [] (some q)
            rw [upd_same]
            rfl
        · show linkSeg _ (upd (upd s.prev q none) b (some q) q) [] none
          rw [upd_ne _ _ _ hqb, upd_same]
          rfl
  · simp only [List.concat_eq_append] at hn1 hv2 hpvP hp1 hq1 hd1 hdisj hndgoal ⊢
    have hpv : s.prev p = some a := by
      rw [hpvP, List.getLast?_concat]
    have hpa : p ≠ a := fun hh => hp1 (by simp [hh])
    have hqa : q ≠ a := fun hh => hq1 (by simp [hh])
    have hal1' : a ∉ l1' := by
      rw [List.nodup_append] at hd1
      exact fun hh => hd1.2.2 hh (List.mem_singleton_self a)
    rw [linkSeg_append] at hn1
    obtain ⟨mid, hnA, hnB⟩ := hn1
    simp only [linkSeg_cons, linkSeg_nil] at hnB
    obtain ⟨hmid, hna⟩ := hnB
    subst hmid
    have hrevl1 : (l1' ++ [a]).reverse = a :: l1'.reverse := by simp
    rw [hrevl1, hpv] at hv2
    obtain ⟨-, hv2tail⟩ := hv2
    cases l2 with
    | nil =>
      rw [change_links_shape_an hpv hnxP hpq hpa]
      refine ⟨?_, ?_, hndgoal⟩
      · rw [linkSeg_append]
        refine ⟨some q, ?_, ⟨rfl, ?_⟩⟩
        · rw [linkSeg_append]
          refine ⟨some a, ?_, ⟨rfl, ?_⟩⟩
          · refine (linkSeg_congr ?_).mpr hnA
            intro x hx
            have hxa : x ≠ a := fun hh => hal1' (hh ▸ hx)
            have hxq : x ≠ q := fun hh =>
              hq1 (by rw [← hh]; exact List.mem_append_left [a] hx)
            dsimp only
            rw [upd_ne _ _ _ hxa, upd_ne _ _ _ hxq]
          · show linkSeg _ (upd (upd s.next q none) a (some q) a) [] (some q)
            rw [upd_same]
            rfl
        · show linkSeg _ (upd (upd s.next q none) a (some q) q) [] none
          rw [upd_ne _ _ _ hqa, upd_same]
          rfl
      · have hrev : ((l1' ++ [a]) ++ [q]).reverse = q :: a :: l1'.reverse := by
          simp
        rw [hrev]
        refine ⟨rfl, ?_⟩
        show linkSeg (upd s.prev q (some a)) (upd s.prev q (some a) q)
          (a :: l1'.reverse) none
        rw [upd_same]
        refine ⟨rfl, ?_⟩
        show linkSeg (upd s.prev q (some a)) (upd s.prev q (some a) a)
          l1'.reverse none
        have haq : a ≠ q := fun hh => hqa hh.symm
        rw [upd_ne _ _ _ haq]
        refine (linkSeg_congr ?_).mpr hv2tail
        intro x hx
        exact upd_ne _ _ _
          (fun hh => hq1 (by rw [← hh]; exact List.mem_append_left [a] (List.mem_reverse.mp hx)))
    | cons b l2' =>
      have hab : a ≠ b := by
        intro hh
        subst hh
        exact hdisj (List.mem_append_right l1' (List.mem_singleton_self a))
          (List.mem_cons_of_mem p (List.mem_cons_self a l2'))
      have hqb : q ≠ b := fun hh =>
        hq2 (by rw [hh]; exact List.mem_cons_self b l2')
      have hbl2' : b ∉ l2' := (List.nodup_cons.mp hd2).1
      rw [change_links_shape_ab hpv hnxP hpq hpa]
      refine ⟨?_, ?_, hndgoal⟩
      · rw [linkSeg_append]
        refine ⟨some q, ?_, ?_⟩
        · rw [linkSeg_append]
          refine ⟨some a, ?_, ⟨rfl, ?_⟩⟩
          · refine (linkSeg_congr ?_).mpr hnA
            intro x hx
            have hxa : x ≠ a := fun hh => hal1' (hh ▸ hx)
            have hxq : x ≠ q := fun hh =>
              hq1 (by rw [← hh]; exact List.mem_append_left [a] hx)
            dsimp only
            rw [upd_ne _ _ _ hxa, upd_ne _ _ _ hxq]
          · show linkSeg _ (upd (upd s.next q (some b)) a (some q) a) []
              (some q)
            rw [upd_same]
            rfl
        · refine ⟨rfl, ?_⟩
          show linkSeg (upd (upd s.next q (some b)) a (some q))
            (upd (upd s.next q (some b)) a (some q) q) (b :: l2') none
          rw [upd_ne _ _ _ hqa, upd_same]
          rw [hnxP, List.head?_cons] at hn2
          refine (linkSeg_congr ?_).mpr hn2
          intro x hx
          have hxa : x ≠ a := by
            intro hh
            subst hh
            exact hdisj (List.mem_append_right l1' (List.mem_singleton_self x))
              (List.mem_cons_of_mem p hx)
          have hxq : x ≠ q := fun hh => hq2 (hh ▸ hx)
          try dsimp only
          rw [upd_ne _ _ _ hxa, upd_ne _ _ _ hxq]
      · have hrevg : ((l1' ++ [a]) ++ q :: b :: l2').reverse
            = (l2'.reverse ++ [b]) ++ q :: a :: l1'.reverse := by simp
        rw [hrevg]
        have hrev1 : (b :: l2').reverse = l2'.reverse ++ [b] := by simp
        rw [hrev1, linkSeg_append] at hv1
        obtain ⟨mid, hvA, hvB⟩ := hv1
        simp only [linkSeg_cons, linkSeg_nil] at hvB
        obtain ⟨hmid, -⟩ := hvB
        subst hmid
        rw [linkSeg_append]
        refine ⟨some q, ?_, ?_⟩
        · rw [linkSeg_append]
          refine ⟨some b, ?_, ⟨rfl, ?_⟩⟩
          · refine (linkSeg_congr ?_).mpr hvA
            intro x hx
            have hxl2' := List.mem_reverse.mp hx
            have hxb : x ≠ b := fun hh => hbl2' (hh ▸ hxl2')
            have hxq : x ≠ q := fun hh =>
              hq2 (by rw [← hh]; exact List.mem_cons_of_mem b hxl2')
            dsimp only
            rw [upd_ne _ _ _ hxb, upd_ne _ _ _ hxq]
          · show linkSeg _ (upd (upd s.prev q (some a)) b (some q) b) []
              (some q)
            rw [upd_same]
            rfl
        · refine ⟨rfl, ?_⟩
          show linkSeg (upd (upd s.prev q (some a)) b (some q))
            (upd (upd s.prev q (some a)) b (some q) q) (a :: l1'.reverse) none
          rw [upd_ne _ _ _ hqb, upd_same]
          refine ⟨rfl, ?_⟩
          show linkSeg (upd (upd s.prev q (some a)) b (some q))
            (upd (upd s.prev q (some a)) b (some q) a) l1'.reverse none
          have haq : a ≠ q := fun hh => hqa hh.symm
          rw [upd_ne _ _ _ hab, upd_ne _ _ _ haq]
          refine (linkSeg_congr ?_).mpr hv2tail
          intro x hx
          have hxl1' := List.mem_reverse.mp hx
          have hxb : x ≠ b := by
            intro hh
            subst hh
            exact hdisj (List.mem_append_left [a] hxl1')
              (List.mem_cons_of_mem p (List.mem_cons_self x l2'))
          have hxq : x ≠ q :=
            fun hh => hq1 (by rw [← hh]; exact List.mem_append_left [a] hxl1')
          try dsimp only
          rw [upd_ne _ _ _ hxb, upd_ne _ _ _ hxq]

theorem move_up_unfold {env : Vst2Env} {s : PState} {plugin pv : Nat}
    (hpv : s.prev plugin = some pv) :
    vst2_process_move_plugin env s plugin true
      = vst2_move_aux_swap env (move_up_relink s plugin pv) plugin true := by
  unfold vst2_process_move_plugin
  rw [if_pos rfl, hpv]

theorem move_up_noop {env : Vst2Env} {s : PState} {plugin : Nat}
    (hpv : s.prev plugin = none) :
    vst2_process_move_plugin env s plugin true = s := by
  unfold vst2_process_move_plugin
  rw [if_pos rfl, hpv]

theorem move_down_unfold {env : Vst2Env} {s : PState} {plugin nv : Nat}
    (hnx : s.next plugin = some nv) :
    vst2_process_move_plugin env s plugin false
      = vst2_move_aux_swap env (move_down_relink s plugin nv) plugin false := by
  unfold vst2_process_move_plugin
  rw [if_neg (by decide), hnx]

theorem move_down_noop {env : Vst2Env} {s : PState} {plugin : Nat}
    (hnx : s.next plugin = none) :
    vst2_process_move_plugin env s plugin false = s := by
  unfold vst2_process_move_plugin
  rw [if_neg (by decide), hnx]

theorem move_up_shape_nn {s : PState} {plugin pv : Nat} (hpp : s.prev pv = none)
    (hn : s.next plugin = none) :
    move_up_relink s plugin pv =
      { chain := some plugin
        chain_end := some pv
        next := upd (upd s.next pv none) plugin (some pv)
        prev := upd (upd s.prev pv (some plugin)) plugin none
        aux := s.aux } := by
  unfold move_up_relink
  dsimp only
  rw [hpp, hn]

theorem move_up_shape_nb {s : PState} {plugin pv nv : Nat}
    (hpp : s.prev pv = none) (hn : s.next plugin = some nv) :
    move_up_relink s plugin pv =
      { chain := some plugin
        chain_end := s.chain_end
        next := upd (upd s.next pv (some nv)) plugin (some pv)
        prev := upd (upd (upd s.prev pv (some plugin)) plugin none) nv (some pv)
        aux := s.aux } := by
  unfold move_up_relink
  dsimp only
  rw [hpp, hn]

theorem move_up_shape_an {s : PState} {plugin pv ppv : Nat}
    (hpp : s.prev pv = some ppv) (hn : s.next plugin = none) :
    move_up_relink s plugin pv =
      { chain := s.chain
        chain_end := some pv
        next := upd (upd (upd s.next ppv (some plugin)) pv none) plugin (some pv)
        prev := upd (upd s.prev pv (some plugin)) plugin (some ppv)
        aux := s.aux } := by
  unfold move_up_relink
  dsimp only
  rw [hpp, hn]

theorem move_up_shape_ab {s : PState} {plugin pv ppv nv : Nat}
    (hpp : s.prev pv = some ppv) (hn : s.next plugin = some nv) :
    move_up_relink s plugin pv =
      { chain := s.chain
        chain_end := s.chain_end
        next := upd (upd (upd s.next ppv (some plugin)) pv (some nv)) plugin
          (some pv)
        prev := upd (upd (upd s.prev pv (some plugin)) plugin (some ppv)) nv
          (some pv)
        aux := s.aux } := by
  unfold move_up_relink
  dsimp only
  rw [hpp, hn]

theorem move_down_shape_nn {s : PState} {plugin nv : Nat}
    (hp : s.prev plugin = none) (hnn : s.next nv = none) :
    move_down_relink s plugin nv =
      { chain := some nv
        chain_end := some plugin
        next := upd (upd s.next nv (some plugin)) plugin none
        prev := upd (upd s.prev nv none) plugin (some nv)
        aux := s.aux } := by
  unfold move_down_relink
  dsimp only
  rw [hp, hnn]

theorem move_down_shape_nb {s : PState} {plugin nv nnv : Nat}
    (hp : s.prev plugin = none) (hnn : s.next nv = some nnv) :
    move_down_relink s plugin nv =
      { chain := some nv
        chain_end := s.chain_end
        next := upd (upd s.next nv (some plugin)) plugin (some nnv)
        prev := upd (upd (upd s.prev nv none) plugin (some nv)) nnv (some plugin)
        aux := s.aux } := by
  unfold move_down_relink
  dsimp only
  rw [hp, hnn]

theorem move_down_shape_an {s : PState} {plugin nv pv : Nat}
    (hp : s.prev plugin = some pv) (hnn : s.next nv = none) :
    move_down_relink s plugin nv =
      { chain := s.chain
        chain_end := some plugin
        next := upd (upd (upd s.next pv (some nv)) nv (some plugin)) plugin none
        prev := upd (upd s.prev nv (some pv)) plugin (some nv)
        aux := s.aux } := by
  unfold move_down_relink
  dsimp only
  rw [hp, hnn]

theorem move_down_shape_ab {s : PState} {plugin nv pv nnv : Nat}
    (hp : s.prev plugin = some pv) (hnn : s.next nv = some nnv) :
    move_down_relink s plugin nv =
      { chain := s.chain
        chain_end := s.chain_end
        next := upd (upd (upd s.next pv (some nv)) nv (some plugin)) plugin
          (some nnv)
        prev := upd (upd (upd s.prev nv (some pv)) plugin (some nv)) nnv
          (some plugin)
        aux := s.aux } := by
  unfold move_down_relink
  dsimp only
  rw [hp, hnn]

theorem move_up_to_relink {env : Vst2Env} {s : PState} {plugin pv : Nat}
    (hpv : s.prev plugin = some pv) (l : List Nat) :
    represents (vst2_process_move_plugin env s plugin true) l ↔
      represents (move_up_relink s plugin pv) l := by
  rw [move_up_unfold hpv]
  have hdl := move_aux_swap_links env (move_up_relink s plugin pv) plugin true
  exact represents_ext hdl.1 hdl.2.1 (fun x => congrFun hdl.2.2.1 x)
    (fun x => congrFun hdl.2.2.2 x) l

theorem move_down_to_relink {env : Vst2Env} {s : PState} {plugin nv : Nat}
    (hnx : s.next plugin = some nv) (l : List Nat) :
    represents (vst2_process_move_plugin env s plugin false) l ↔
      represents (move_down_relink s plugin nv) l := by
  rw [move_down_unfold hnx]
  have hdl := move_aux_swap_links env (move_down_relink s plugin nv) plugin false
  exact represents_ext hdl.1 hdl.2.1 (fun x => congrFun hdl.2.2.1 x)
    (fun x => congrFun hdl.2.2.2 x) l

theorem move_up_represents (env : Vst2Env) {s : PState} {l1 l2 : List Nat}
    {a p : Nat} (h : represents s (l1 ++ a :: p :: l2)) :
    represents (vst2_process_move_plugin env s p true) (l1 ++ p :: a :: l2) := by
  have hassoc : l1 ++ a :: p :: l2 = (l1 ++ [a]) ++ p :: l2 := by simp
  rw [hassoc] at h
  obtain ⟨hn1, hn2, hv1, hv2, hnxP, hpvP⟩ := represents_split h
  have hpv : s.prev p = some a := by rw [hpvP, List.getLast?_concat]
  have hnd0 := h.2.2
  rw [List.nodup_append, List.nodup_cons] at hnd0
  obtain ⟨hdl1a, ⟨hpl2, hdl2⟩, hdisj⟩ := hnd0
  have hal1 : a ∉ l1 := by
    rw [List.nodup_append] at hdl1a
    exact fun hh => hdl1a.2.2 hh (List.mem_singleton_self a)
  have hdl1 : l1.Nodup := by
    rw [List.nodup_append] at hdl1a
    exact hdl1a.1
  have hpa : p ≠ a := by
    intro hh
    exact hdisj (List.mem_append_right l1 (List.mem_singleton_self a))
      (by rw [← hh]; exact List.mem_cons_self p l2)
  have hap : a ≠ p := fun hh => hpa hh.symm
  have hpl1 : p ∉ l1 := fun hh =>
    hdisj (List.mem_append_left [a] hh) (List.mem_cons_self p l2)
  have hal2 : a ∉ l2 := fun hh =>
    hdisj (List.mem_append_right l1 (List.mem_singleton_self a))
      (List.mem_cons_of_mem p hh)
  have hndgoal : (l1 ++ p :: a :: l2).Nodup := by
    rw [List.nodup_append, List.nodup_cons, List.nodup_cons]
    refine ⟨hdl1, ⟨?_, hal2, hdl2⟩, ?_⟩
    · intro hh
      rcases List.mem_cons.mp hh with hh1 | hh2
      · exact hpa hh1
      · exact hpl2 hh2
    · intro x hx hy
      rcases List.mem_cons.mp hy with rfl | hy1
      · exact hpl1 hx
      · rcases List.mem_cons.mp hy1 with rfl | hy2
        · exact hal1 hx
        · exact hdisj (List.mem_append_left [a] hx) (List.mem_cons_of_mem p hy2)
  rw [linkSeg_append] at hn1
  obtain ⟨mid, hnA, hnB⟩ := hn1
  simp only [linkSeg_cons, linkSeg_nil] at hnB
  obtain ⟨hmid, hna⟩ := hnB
  subst hmid
  have hrevl1 : (l1 ++ [a]).reverse = a :: l1.reverse := by simp
  rw [hrevl1, hpv] at hv2
  obtain ⟨-, hv2tail⟩ := hv2
  rw [move_up_to_relink hpv]
  rcases List.eq_nil_or_concat l1 with rfl | ⟨l1', c, rfl⟩
  · have hpp : s.prev a = none := hv2tail
    cases l2 with
    | nil =>
      rw [move_up_shape_nn hpp hnxP]
      refine ⟨?_, ?_, hndgoal⟩
      · show linkSeg (upd (upd s.next a none) p (some a)) (some p)
          ([] ++ p :: a :: []) none
        refine ⟨rfl, ?_⟩
        rw [upd_same]
        refine ⟨rfl, ?_⟩
        rw [upd_ne _ _ _ hap, upd_same]
        rfl
      · show linkSeg (upd (upd s.prev a (some p)) p none) (some a)
          (([] ++ p :: a :: []) : List Nat).reverse none
        have hrevg : ((([] : List Nat) ++ p :: a :: [])).reverse = [a, p] := by
          simp
        rw [hrevg]
        refine ⟨rfl, ?_⟩
        rw [upd_ne _ _ _ hap, upd_same]
        refine ⟨rfl, ?_⟩
        rw [upd_same]
        rfl
    | cons b l2' =>
      rw [List.head?_cons] at hnxP
      rw [move_up_shape_nb hpp hnxP]
      have hrev1 : (b :: l2').reverse = l2'.reverse ++ [b] := by simp
      rw [hrev1, linkSeg_append] at hv1
      obtain ⟨mid, hvA, hvB⟩ := hv1
      simp only [linkSeg_cons, linkSeg_nil] at hvB
      obtain ⟨hmid, -⟩ := hvB
      subst hmid
      have hpb : p ≠ b := fun hh =>
        hpl2 (by rw [hh]; exact List.mem_cons_self b l2')
      have hab2 : a ≠ b := fun hh =>
        hal2 (by rw [hh]; exact List.mem_cons_self b l2')
      have hbl2' : b ∉ l2' := (List.nodup_cons.mp hdl2).1
      refine ⟨?_, ?_, hndgoal⟩
      · show linkSeg (upd (upd s.next a (some b)) p (some a)) (some p)
          ([] ++ p :: a :: b :: l2') none
        refine ⟨rfl, ?_⟩
        rw [upd_same]
        refine ⟨rfl, ?_⟩
        rw [upd_ne _ _ _ hap, upd_same]
        rw [hnxP] at hn2
        refine (linkSeg_congr ?_).mpr hn2
        intro x hx
        have hxp : x ≠ p := fun hh => hpl2 (hh ▸ hx)
        have hxa : x ≠ a := fun hh => hal2 (hh ▸ hx)
        rw [upd_ne _ _ _ hxp, upd_ne _ _ _ hxa]
      · show linkSeg (upd (upd (upd s.prev a (some p)) p none) b (some a))
          s.chain_end ([] ++ p :: a :: b :: l2').reverse none
        have hrevg : (([] : List Nat) ++ p :: a :: b :: l2').reverse
            = (l2'.reverse ++ [b]) ++ a :: p :: ([] : List Nat) := by simp
        rw [hrevg, linkSeg_append]
        refine ⟨some a, ?_, ?_⟩
        · rw [linkSeg_append]
          refine ⟨some b, ?_, ⟨rfl, ?_⟩⟩
          · refine (linkSeg_congr ?_).mpr hvA
            intro x hx
            have hxl2' := List.mem_reverse.mp hx
            have hxb : x ≠ b := fun hh => hbl2' (hh ▸ hxl2')
            have hxp : x ≠ p := fun hh =>
              hpl2 (hh ▸ List.mem_cons_of_mem b hxl2')
            have hxa : x ≠ a := fun hh =>
              hal2 (hh ▸ List.mem_cons_of_mem b hxl2')
            rw [upd_ne _ _ _ hxb, upd_ne _ _ _ hxp, upd_ne _ _ _ hxa]
          · show linkSeg (upd (upd (upd s.prev a (some p)) p none) b (some a))
              (upd (upd (upd s.prev a (some p)) p none) b (some a) b) []
              (some a)
            rw [upd_same]
            rfl
        · refine ⟨rfl, ?_⟩
          rw [upd_ne _ _ _ hab2, upd_ne _ _ _ hap, upd_same]
          refine ⟨rfl, ?_⟩
          rw [upd_ne _ _ _ hpb, upd_same]
          rfl
  · simp only [List.concat_eq_append] at hnA hv2tail hal1 hdl1 hpl1 hndgoal hdisj ⊢
    have hrevc : (l1' ++ [c]).reverse = c :: l1'.reverse := by simp
    rw [hrevc] at hv2tail
    obtain ⟨hpc, hv2tt⟩ := hv2tail
    rw [linkSeg_append] at hnA
    obtain ⟨mid, hnAA, hnAB⟩ := hnA
    simp only [linkSeg_cons, linkSeg_nil] at hnAB
    obtain ⟨hmid, hnc⟩ := hnAB
    subst hmid
    have hcl1' : c ∉ l1' := by
      rw [List.nodup_append] at hdl1
      exact fun hh => hdl1.2.2 hh (List.mem_singleton_self c)
    have hac : a ≠ c := fun hh =>
      hal1 (by rw [hh]; exact List.mem_append_right l1' (List.mem_singleton_self c))
    have hpcne : p ≠ c := fun hh =>
      hpl1 (by rw [hh]; exact List.mem_append_right l1' (List.mem_singleton_self c))
    have hca : c ≠ a := fun hh => hac hh.symm
    have hcp : c ≠ p := fun hh => hpcne hh.symm
    cases l2 with
    | nil =>
      rw [move_up_shape_an hpc hnxP]
      refine ⟨?_, ?_, hndgoal⟩
      · show linkSeg (upd (upd (upd s.next c (some p)) a none) p (some a))
          s.chain ((l1' ++ [c]) ++ p :: a :: []) none
        rw [linkSeg_append]
        refine ⟨some p, ?_, ?_⟩
        · rw [linkSeg_append]
          refine ⟨some c, ?_, ⟨rfl, ?_⟩⟩
          · refine (linkSeg_congr ?_).mpr hnAA
            intro x hx
            have hxp : x ≠ p := fun hh =>
              hpl1 (hh ▸ List.mem_append_left [c] hx)
            have hxa : x ≠ a := fun hh =>
              hal1 (hh ▸ List.mem_append_left [c] hx)
            have hxc : x ≠ c := fun hh => hcl1' (hh ▸ hx)
            rw [upd_ne _ _ _ hxp, upd_ne _ _ _ hxa, upd_ne _ _ _ hxc]
          · show linkSeg (upd (upd (upd s.next c (some p)) a none) p (some a))
              (upd (upd (upd s.next c (some p)) a none) p (some a) c) []
              (some p)
            rw [upd_ne _ _ _ hcp, upd_ne _ _ _ hca, upd_same]
            rfl
        · refine ⟨rfl, ?_⟩
          rw [upd_same]
          refine ⟨rfl, ?_⟩
          rw [upd_ne _ _ _ hap, upd_same]
          rfl
      · show linkSeg (upd (upd s.prev a (some p)) p (some c)) (some a)
          ((l1' ++ [c]) ++ p :: a :: ([] : List Nat)).reverse none
        have hrevg : ((l1' ++ [c]) ++ p :: a :: ([] : List Nat)).reverse
            = a :: p :: c :: l1'.reverse := by simp
        rw [hrevg]
        refine ⟨rfl, ?_⟩
        rw [upd_ne _ _ _ hap, upd_same]
        refine ⟨rfl, ?_⟩
        rw [upd_same]
        refine ⟨rfl, ?_⟩
        rw [upd_ne _ _ _ hcp, upd_ne _ _ _ hca]
        refine (linkSeg_congr ?_).mpr hv2tt
        intro x hx
        have hxl1' := List.mem_reverse.mp hx
        have hxp : x ≠ p := fun hh =>
          hpl1 (hh ▸ List.mem_append_left [c] hxl1')
        have hxa : x ≠ a := fun hh =>
          hal1 (hh ▸ List.mem_append_left [c] hxl1')
        rw [upd_ne _ _ _ hxp, upd_ne _ _ _ hxa]
    | cons b l2' =>
      rw [List.head?_cons] at hnxP
      rw [move_up_shape_ab hpc hnxP]
      have hrev1 : (b :: l2').reverse = l2'.reverse ++ [b] := by simp
      rw [hrev1, linkSeg_append] at hv1
      obtain ⟨mid, hvA, hvB⟩ := hv1
      simp only [linkSeg_cons, linkSeg_nil] at hvB
      obtain ⟨hmid, -⟩ := hvB
      subst hmid
      have hpb : p ≠ b := fun hh =>
        hpl2 (by rw [hh]; exact List.mem_cons_self b l2')
      have hab2 : a ≠ b := fun hh =>
        hal2 (by rw [hh]; exact List.mem_cons_self b l2')
      have hcb : c ≠ b := by
        intro hh
        exact hdisj
          (List.mem_append_left [a]
            (List.mem_append_right l1' (List.mem_singleton_self c)))
          (by rw [hh]; exact List.mem_cons_of_mem p (List.mem_cons_self b l2'))
      have hbl2' : b ∉ l2' := (List.nodup_cons.mp hdl2).1
      refine ⟨?_, ?_, hndgoal⟩
      · show linkSeg (upd (upd (upd s.next c (some p)) a (some b)) p (some a))
          s.chain ((l1' ++ [c]) ++ p :: a :: b :: l2') none
        rw [linkSeg_append]
        refine ⟨some p, ?_, ?_⟩
        · rw [linkSeg_append]
          refine ⟨some c, ?_, ⟨rfl, ?_⟩⟩
          · refine (linkSeg_congr ?_).mpr hnAA
            intro x hx
            have hxp : x ≠ p := fun hh =>
              hpl1 (hh ▸ List.mem_append_left [c] hx)
            have hxa : x ≠ a := fun hh =>
              hal1 (hh ▸ List.mem_append_left [c] hx)
            have hxc : x ≠ c := fun hh => hcl1' (hh ▸ hx)
            rw [upd_ne _ _ _ hxp, upd_ne _ _ _ hxa, upd_ne _ _ _ hxc]
          · show linkSeg (upd (upd (upd s.next c (some p)) a (some b)) p (some a))
              (upd (upd (upd s.next c (some p)) a (some b)) p (some a) c) []
              (some p)
            rw [upd_ne _ _ _ hcp, upd_ne _ _ _ hca, upd_same]
            rfl
        · refine ⟨rfl, ?_⟩
          rw [upd_same]
          refine ⟨rfl, ?_⟩
          rw [upd_ne _ _ _ hap, upd_same]
          rw [hnxP] at hn2
          refine (linkSeg_congr ?_).mpr hn2
          intro x hx
          have hxp : x ≠ p := fun hh => hpl2 (hh ▸ hx)
          have hxa : x ≠ a := fun hh => hal2 (hh ▸ hx)
          have hxc : x ≠ c := by
            intro hh
            refine hdisj ?_ (List.mem_cons_of_mem p hx)
            rw [hh]
            exact List.mem_append_left [a]
              (List.mem_append_right l1' (List.mem_singleton_self c))
          rw [upd_ne _ _ _ hxp, upd_ne _ _ _ hxa, upd_ne _ _ _ hxc]
      · show linkSeg (upd (upd (upd s.prev a (some p)) p (some c)) b (some a))
          s.chain_end ((l1' ++ [c]) ++ p :: a :: b :: l2').reverse none
        have hrevg : ((l1' ++ [c]) ++ p :: a :: b :: l2').reverse
            = (l2'.reverse ++ [b]) ++ a :: p :: c :: l1'.reverse := by simp
        rw [hrevg, linkSeg_append]
        refine ⟨some a, ?_, ?_⟩
        · rw [linkSeg_append]
          refine ⟨some b, ?_, ⟨rfl, ?_⟩⟩
          · refine (linkSeg_congr ?_).mpr hvA
            intro x hx
            have hxl2' := List.mem_reverse.mp hx
            have hxb : x ≠ b := fun hh => hbl2' (hh ▸ hxl2')
            have hxp : x ≠ p := fun hh =>
              hpl2 (hh ▸ List.mem_cons_of_mem b hxl2')
            have hxa : x ≠ a := fun hh =>
              hal2 (hh ▸ List.mem_cons_of_mem b hxl2')
            rw [upd_ne _ _ _ hxb, upd_ne _ _ _ hxp, upd_ne _ _ _ hxa]
          · show linkSeg (upd (upd (upd s.prev a (some p)) p (some c)) b (some a))
              (upd (upd (upd s.prev a (some p)) p (some c)) b (some a) b) []
              (some a)
            rw [upd_same]
            rfl
        · refine ⟨rfl, ?_⟩
          rw [upd_ne _ _ _ hab2, upd_ne _ _ _ hap, upd_same]
          refine ⟨rfl, ?_⟩
          rw [upd_ne _ _ _ hpb, upd_same]
          refine ⟨rfl, ?_⟩
          rw [upd_ne _ _ _ hcb, upd_ne _ _ _ hcp, upd_ne _ _ _ hca]
          refine (linkSeg_congr ?_).mpr hv2tt
          intro x hx
          have hxl1' := List.mem_reverse.mp hx
          have hxb : x ≠ b := by
            intro hh
            exact hdisj (List.mem_append_left [a] (List.mem_append_left [c] hxl1'))
              (by rw [hh]; exact List.mem_cons_of_mem p (List.mem_cons_self b l2'))
          have hxp : x ≠ p := fun hh =>
            hpl1 (hh ▸ List.mem_append_left [c] hxl1')
          have hxa : x ≠ a := fun hh =>
            hal1 (hh ▸ List.mem_append_left [c] hxl1')
          rw [upd_ne _ _ _ hxb, upd_ne _ _ _ hxp, upd_ne _ _ _ hxa]

theorem move_down_represents (env : Vst2Env) {s : PState} {l1 l2 : List Nat}
    {p b : Nat} (h : represents s (l1 ++ p :: b :: l2)) :
    represents (vst2_process_move_plugin env s p false) (l1 ++ b :: p :: l2) := by
  obtain ⟨hn1, hn2, hv1, hv2, hnxP, hpvP⟩ := represents_split h
  obtain ⟨hnb, hn2t⟩ := hn2
  have hnd0 := h.2.2
  rw [List.nodup_append, List.nodup_cons, List.nodup_cons] at hnd0
  obtain ⟨hdl1, ⟨hpbl2, hbl2, hdl2⟩, hdisj⟩ := hnd0
  have hpb : p ≠ b := fun hh => hpbl2 (by rw [hh]; exact List.mem_cons_self b l2)
  have hbp : b ≠ p := fun hh => hpb hh.symm
  have hpl2 : p ∉ l2 := fun hh => hpbl2 (List.mem_cons_of_mem b hh)
  have hpl1 : p ∉ l1 := fun hh =>
    hdisj hh (List.mem_cons_self p (b :: l2))
  have hbl1 : b ∉ l1 := fun hh =>
    hdisj hh (List.mem_cons_of_mem p (List.mem_cons_self b l2))
  have hndgoal : (l1 ++ b :: p :: l2).Nodup := by
    rw [List.nodup_append, List.nodup_cons, List.nodup_cons]
    refine ⟨hdl1, ⟨?_, hpl2, hdl2⟩, ?_⟩
    · intro hh
      rcases List.mem_cons.mp hh with hh1 | hh2
      · exact hbp hh1
      · exact hbl2 hh2
    · intro x hx hy
      rcases List.mem_cons.mp hy with rfl | hy1
      · exact hbl1 hx
      · rcases List.mem_cons.mp hy1 with rfl | hy2
        · exact hpl1 hx
        · exact hdisj hx (List.mem_cons_of_mem p (List.mem_cons_of_mem b hy2))
  have hrevb : (b :: l2).reverse = l2.reverse ++ [b] := by simp
  rw [hrevb, linkSeg_append] at hv1
  obtain ⟨mid, hvA, hvB⟩ := hv1
  simp only [linkSeg_cons, linkSeg_nil] at hvB
  obtain ⟨hmid, -⟩ := hvB
  subst hmid
  rw [move_down_to_relink hnb]
  rcases List.eq_nil_or_concat l1 with rfl | ⟨l1', a, rfl⟩
  · have hpvn : s.prev p = none := hpvP
    cases l2 with
    | nil =>
      have hnn : s.next b = none := hn2t
      rw [move_down_shape_nn hpvn hnn]
      refine ⟨?_, ?_, hndgoal⟩
      · show linkSeg (upd (upd s.next b (some p)) p none) (some b)
          ([] ++ b :: p :: []) none
        refine ⟨rfl, ?_⟩
        rw [upd_ne _ _ _ hbp, upd_same]
        refine ⟨rfl, ?_⟩
        rw [upd_same]
        rfl
      · show linkSeg (upd (upd s.prev b none) p (some b)) (some p)
          (([] ++ b :: p :: []) : List Nat).reverse none
        have hrevg : ((([] : List Nat) ++ b :: p :: [])).reverse = [p, b] := by
          simp
        rw [hrevg]
        refine ⟨rfl, ?_⟩
        rw [upd_same]
        refine ⟨rfl, ?_⟩
        rw [upd_ne _ _ _ hbp, upd_same]
        rfl
    | cons d l2' =>
      obtain ⟨hnd, hn2tt⟩ := hn2t
      have hdp : d ≠ p := fun hh =>
        hpl2 (by rw [← hh]; exact List.mem_cons_self d l2')
      have hdb : d ≠ b := fun hh =>
        hbl2 (by rw [← hh]; exact List.mem_cons_self d l2')
      have hpd : p ≠ d := fun hh => hdp hh.symm
      have hbd : b ≠ d := fun hh => hdb hh.symm
      have hdl2' : d ∉ l2' := (List.nodup_cons.mp hdl2).1
      rw [move_down_shape_nb hpvn hnd]
      have hrevd : (d :: l2').reverse = l2'.reverse ++ [d] := by simp
      rw [hrevd, linkSeg_append] at hvA
      obtain ⟨mid, hvAA, hvAB⟩ := hvA
      simp only [linkSeg_cons, linkSeg_nil] at hvAB
      obtain ⟨hmid, -⟩ := hvAB
      subst hmid
      refine ⟨?_, ?_, hndgoal⟩
      · show linkSeg (upd (upd s.next b (some p)) p (some d)) (some b)
          ([] ++ b :: p :: d :: l2') none
        refine ⟨rfl, ?_⟩
        rw [upd_ne _ _ _ hbp, upd_same]
        refine ⟨rfl, ?_⟩
        rw [upd_same]
        refine (linkSeg_congr ?_).mpr ⟨rfl, hn2tt⟩
        intro x hx
        have hxp : x ≠ p := fun hh => hpl2 (hh ▸ hx)
        have hxb : x ≠ b := fun hh => hbl2 (hh ▸ hx)
        rw [upd_ne _ _ _ hxp, upd_ne _ _ _ hxb]
      · show linkSeg (upd (upd (upd s.prev b none) p (some b)) d (some p))
          s.chain_end ([] ++ b :: p :: d :: l2').reverse none
        have hrevg : (([] : List Nat) ++ b :: p :: d :: l2').reverse
            = (l2'.reverse ++ [d]) ++ p :: b :: ([] : List Nat) := by simp
        rw [hrevg, linkSeg_append]
        refine ⟨some p, ?_, ?_⟩
        · rw [linkSeg_append]
          refine ⟨some d, ?_, ⟨rfl, ?_⟩⟩
          · refine (linkSeg_congr ?_).mpr hvAA
            intro x hx
            have hxl2' := List.mem_reverse.mp hx
            have hxd : x ≠ d := fun hh => hdl2' (hh ▸ hxl2')
            have hxp : x ≠ p := fun hh =>
              hpl2 (hh ▸ List.mem_cons_of_mem d hxl2')
            have hxb : x ≠ b := fun hh =>
              hbl2 (hh ▸ List.mem_cons_of_mem d hxl2')
            rw [upd_ne _ _ _ hxd, upd_ne _ _ _ hxp, upd_ne _ _ _ hxb]
          · show linkSeg (upd (upd (upd s.prev b none) p (some b)) d (some p))
              (upd (upd (upd s.prev b none) p (some b)) d (some p) d) []
              (some p)
            rw [upd_same]
            rfl
        · refine ⟨rfl, ?_⟩
          rw [upd_ne _ _ _ hpd, upd_same]
          refine ⟨rfl, ?_⟩
          rw [upd_ne _ _ _ hbd, upd_ne _ _ _ hbp, upd_same]
          rfl
  · simp only [List.concat_eq_append] at hn1 hv2 hpvP hpl1 hbl1 hdl1 hndgoal hdisj ⊢
    have hpv : s.prev p = some a := by rw [hpvP, List.getLast?_concat]
    have hpa : p ≠ a := fun hh => hpl1 (by simp [hh])
    have hba : b ≠ a := fun hh => hbl1 (by simp [hh])
    have hap : a ≠ p := fun hh => hpa hh.symm
    have hab : a ≠ b := fun hh => hba hh.symm
    have hal1' : a ∉ l1' := by
      rw [List.nodup_append] at hdl1
      exact fun hh => hdl1.2.2 hh (List.mem_singleton_self a)
    rw [linkSeg_append] at hn1
    obtain ⟨mid, hnA, hnB⟩ := hn1
    simp only [linkSeg_cons, linkSeg_nil] at hnB
    obtain ⟨hmid, hna⟩ := hnB
    subst hmid
    have hrevl1 : (l1' ++ [a]).reverse = a :: l1'.reverse := by simp
    rw [hrevl1, hpv] at hv2
    obtain ⟨-, hv2t⟩ := hv2
    cases l2 with
    | nil =>
      have hnn : s.next b = none := hn2t
      rw [move_down_shape_an hpv hnn]
      refine ⟨?_, ?_, hndgoal⟩
      · show linkSeg (upd (upd (upd s.next a (some b)) b (some p)) p none)
          s.chain ((l1' ++ [a]) ++ b :: p :: []) none
        rw [linkSeg_append]
        refine ⟨some b, ?_, ?_⟩
        · rw [linkSeg_append]
          refine ⟨some a, ?_, ⟨rfl, ?_⟩⟩
          · refine (linkSeg_congr ?_).mpr hnA
            intro x hx
            have hxp : x ≠ p := fun hh =>
              hpl1 (hh ▸ List.mem_append_left [a] hx)
            have hxb : x ≠ b := fun hh =>
              hbl1 (hh ▸ List.mem_append_left [a] hx)
            have hxa : x ≠ a := fun hh => hal1' (hh ▸ hx)
            rw [upd_ne _ _ _ hxp, upd_ne _ _ _ hxb, upd_ne _ _ _ hxa]
          · show linkSeg (upd (upd (upd s.next a (some b)) b (some p)) p none)
              (upd (upd (upd s.next a (some b)) b (some p)) p none a) []
              (some b)
            rw [upd_ne _ _ _ hap, upd_ne _ _ _ hab, upd_same]
            rfl
        · refine ⟨rfl, ?_⟩
          rw [upd_ne _ _ _ hbp, upd_same]
          refine ⟨rfl, ?_⟩
          rw [upd_same]
          rfl
      · show linkSeg (upd (upd s.prev b (some a)) p (some b)) (some p)
          ((l1' ++ [a]) ++ b :: p :: ([] : List Nat)).reverse none
        have hrevg : ((l1' ++ [a]) ++ b :: p :: ([] : List Nat)).reverse
            = p :: b :: a :: l1'.reverse := by simp
        rw [hrevg]
        refine ⟨rfl, ?_⟩
        rw [upd_same]
        refine ⟨rfl, ?_⟩
        rw [upd_ne _ _ _ hbp, upd_same]
        refine ⟨rfl, ?_⟩
        rw [upd_ne _ _ _ hap, upd_ne _ _ _ hab]
        refine (linkSeg_congr ?_).mpr hv2t
        intro x hx
        have hxl1' := List.mem_reverse.mp hx
        have hxp : x ≠ p := fun hh =>
          hpl1 (hh ▸ List.mem_append_left [a] hxl1')
        have hxb : x ≠ b := fun hh =>
          hbl1 (hh ▸ List.mem_append_left [a] hxl1')
        rw [upd_ne _ _ _ hxp, upd_ne _ _ _ hxb]
    | cons d l2' =>
      obtain ⟨hnd, hn2tt⟩ := hn2t
      have hdp : d ≠ p := fun hh =>
        hpl2 (by rw [← hh]; exact List.mem_cons_self d l2')
      have hdb : d ≠ b := fun hh =>
        hbl2 (by rw [← hh]; exact List.mem_cons_self d l2')
      have hpd : p ≠ d := fun hh => hdp hh.symm
      have hbd : b ≠ d := fun hh => hdb hh.symm
      have had : a ≠ d := by
        intro hh
        exact hdisj (List.mem_append_right l1' (by rw [hh]; exact List.mem_singleton_self d))
          (List.mem_cons_of_mem p (List.mem_cons_of_mem b (by rw [← hh]; exact hh ▸ List.mem_cons_self d l2')))
      have hda : d ≠ a := fun hh => had hh.symm
      have hdl2' : d ∉ l2' := (List.nodup_cons.mp hdl2).1
      rw [move_down_shape_ab hpv hnd]
      have hrevd : (d :: l2').reverse = l2'.reverse ++ [d] := by simp
      rw [hrevd, linkSeg_append] at hvA
      obtain ⟨mid, hvAA, hvAB⟩ := hvA
      simp only [linkSeg_cons, linkSeg_nil] at hvAB
      obtain ⟨hmid, -⟩ := hvAB
      subst hmid
      refine ⟨?_, ?_, hndgoal⟩
      · show linkSeg
          (upd (upd (upd s.next a (some b)) b (some p)) p (some d))
          s.chain ((l1' ++ [a]) ++ b :: p :: d :: l2') none
        rw [linkSeg_append]
        refine ⟨some b, ?_, ?_⟩
        · rw [linkSeg_append]
          refine ⟨some a, ?_, ⟨rfl, ?_⟩⟩
          · refine (linkSeg_congr ?_).mpr hnA
            intro x hx
            have hxp : x ≠ p := fun hh =>
              hpl1 (hh ▸ List.mem_append_left [a] hx)
            have hxb : x ≠ b := fun hh =>
              hbl1 (hh ▸ List.mem_append_left [a] hx)
            have hxa : x ≠ a := fun hh => hal1' (hh ▸ hx)
            rw [upd_ne _ _ _ hxp, upd_ne _ _ _ hxb, upd_ne _ _ _ hxa]
          · show linkSeg
              (upd (upd (upd s.next a (some b)) b (some p)) p (some d))
              (upd (upd (upd s.next a (some b)) b (some p)) p (some d) a) []
              (some b)
            rw [upd_ne _ _ _ hap, upd_ne _ _ _ hab, upd_same]
            rfl
        · refine ⟨rfl, ?_⟩
          rw [upd_ne _ _ _ hbp, upd_same]
          refine ⟨rfl, ?_⟩
          rw [upd_same]
          refine (linkSeg_congr ?_).mpr ⟨rfl, hn2tt⟩
          intro x hx
          have hxp : x ≠ p := fun hh => hpl2 (hh ▸ hx)
          have hxb : x ≠ b := fun hh => hbl2 (hh ▸ hx)
          have hxa : x ≠ a := by
            intro hh
            refine hdisj ?_
              (List.mem_cons_of_mem p (List.mem_cons_of_mem b hx))
            rw [← hh]
            exact List.mem_append_right l1' (List.mem_singleton_self x)
          rw [upd_ne _ _ _ hxp, upd_ne _ _ _ hxb, upd_ne _ _ _ hxa]
      · show linkSeg
          (upd (upd (upd s.prev b (some a)) p (some b)) d (some p))
          s.chain_end ((l1' ++ [a]) ++ b :: p :: d :: l2').reverse none
        have hrevg : ((l1' ++ [a]) ++ b :: p :: d :: l2').reverse
            = (l2'.reverse ++ [d]) ++ p :: b :: a :: l1'.reverse := by simp
        rw [hrevg, linkSeg_append]
        refine ⟨some p, ?_, ?_⟩
        · rw [linkSeg_append]
          refine ⟨some d, ?_, ⟨rfl, ?_⟩⟩
          · refine (linkSeg_congr ?_).mpr hvAA
            intro x hx
            have hxl2' := List.mem_reverse.mp hx
            have hxd : x ≠ d := fun hh => hdl2' (hh ▸ hxl2')
            have hxp : x ≠ p := fun hh =>
              hpl2 (hh ▸ List.mem_cons_of_mem d hxl2')
            have hxb : x ≠ b := fun hh =>
              hbl2 (hh ▸ List.mem_cons_of_mem d hxl2')
            rw [upd_ne _ _ _ hxd, upd_ne _ _ _ hxp, upd_ne _ _ _ hxb]
          · show linkSeg
              (upd (upd (upd s.prev b (some a)) p (some b)) d (some p))
              (upd (upd (upd s.prev b (some a)) p (some b)) d (some p) d) []
              (some p)
            rw [upd_same]
            rfl
        · refine ⟨rfl, ?_⟩
          rw [upd_ne _ _ _ hpd, upd_same]
          refine ⟨rfl, ?_⟩
          rw [upd_ne _ _ _ hbd, upd_ne _ _ _ hbp, upd_same]
          refine ⟨rfl, ?_⟩
          rw [upd_ne _ _ _ had, upd_ne _ _ _ hap, upd_ne _ _ _ hab]
          refine (linkSeg_congr ?_).mpr hv2t
          intro x hx
          have hxl1' := List.mem_reverse.mp hx
          have hxd : x ≠ d := by
            intro hh
            refine hdisj (List.mem_append_left [a] hxl1') ?_
            rw [hh]
            exact List.mem_cons_of_mem p
              (List.mem_cons_of_mem b (List.mem_cons_self d l2'))
          have hxp : x ≠ p := fun hh =>
            hpl1 (hh ▸ List.mem_append_left [a] hxl1')
          have hxb : x ≠ b := fun hh =>
            hbl1 (hh ▸ List.mem_append_left [a] hxl1')
          rw [upd_ne _ _ _ hxd, upd_ne _ _ _ hxp, upd_ne _ _ _ hxb]

theorem move_up_head_represents (env : Vst2Env) {s : PState} {l : List Nat}
    {p : Nat} (h : represents s l) (hh : l.head? = some p) :
    represents (vst2_process_move_plugin env s p true) l := by
  cases l with
  | nil => simp at hh
  | cons x t =>
    rw [List.head?_cons] at hh
    obtain rfl := Option.some.inj hh
    have hpv : s.prev x = none := (@represents_split s [] _ _ h).2.2.2.2.2
    rw [move_up_noop hpv]
    exact h

theorem move_down_last_represents (env : Vst2Env) {s : PState} {l : List Nat}
    {p : Nat} (h : represents s l) (hh : l.getLast? = some p) :
    represents (vst2_process_move_plugin env s p false) l := by
  have hrev : l.reverse.head? = some p := by rw [List.head?_reverse]; exact hh
  cases hl : l.reverse with
  | nil => rw [hl] at hrev; simp at hrev
  | cons x t =>
    rw [hl, List.head?_cons] at hrev
    obtain rfl := Option.some.inj hrev
    have hl2 : l = t.reverse ++ [x] := by
      have h2 := congrArg List.reverse hl
      rw [List.reverse_reverse, List.reverse_cons] at h2
      exact h2
    rw [hl2] at h
    have hnx : s.next x = none := (@represents_split s _ [] _ h).2.2.2.2.1
    rw [move_down_noop hnx]
    rw [hl2]
    exact h

theorem reachable_represents {s : PState} {l : List Nat} (h : Reachable s l) :
    represents s l := by
  induction h with
  | empty => exact ⟨rfl, rfl, List.nodup_nil⟩
  | add s l p hr hp ih => exact add_represents ih hp
  | remove env s l1 l2 p fuel hr ih =>
    rw [remove_to_links]
    exact remove_links_represents ih
  | move_up env s l1 l2 a p hr ih => exact move_up_represents env ih
  | move_up_head env s l p hr hh ih => exact move_up_head_represents env ih hh
  | move_down env s l1 l2 p b hr ih => exact move_down_represents env ih
  | move_down_last env s l p hr hh ih =>
    exact move_down_last_represents env ih hh
  | change env s l1 l2 p q fuel hr hq ih =>
    rw [change_to_links]
    exact change_links_represents ih hq

theorem represents_next_prev {s : PState} {l : List Nat}
    (h : represents s l) :
    ∀ n ∈ l, ∀ m, s.next n = some m → s.prev m = some n := by
  intro n hn m hm
  obtain ⟨t1, t2, rfl⟩ := List.append_of_mem hn
  obtain ⟨hn1, hn2, hv1, hv2, hnxP, hpvP⟩ := represents_split h
  rw [hnxP] at hm
  cases t2 with
  | nil => simp at hm
  | cons b t2' =>
    rw [List.head?_cons] at hm
    obtain rfl := Option.some.inj hm
    have hrev : (b :: t2').reverse = t2'.reverse ++ [b] := by simp
    rw [hrev, linkSeg_append] at hv1
    obtain ⟨mid, hvA, hvB⟩ := hv1
    simp only [linkSeg_cons, linkSeg_nil] at hvB
    exact hvB.2

theorem represents_prev_next {s : PState} {l : List Nat}
    (h : represents s l) :
    ∀ n ∈ l, ∀ m, s.prev n = some m → s.next m = some n := by
  intro n hn m hm
  obtain ⟨t1, t2, rfl⟩ := List.append_of_mem hn
  obtain ⟨hn1, hn2, hv1, hv2, hnxP, hpvP⟩ := represents_split h
  rw [hpvP] at hm
  rcases List.eq_nil_or_concat t1 with rfl | ⟨t1', m', rfl⟩
  · simp at hm
  · rw [List.concat_eq_append, List.getLast?_concat] at hm
    obtain rfl := Option.some.inj hm
    rw [List.concat_eq_append, linkSeg_append] at hn1
    obtain ⟨mid, hnA, hnB⟩ := hn1
    simp only [linkSeg_cons, linkSeg_nil] at hnB
    exact hnB.2

theorem represents_head_prev {s : PState} {l : List Nat}
    (h : represents s l) :
    ∀ hd, s.chain = some hd → s.prev hd = none := by
  intro hd hc
  have hh := represents_chain h
  rw [hc] at hh
  cases l with
  | nil => simp at hh
  | cons x t =>
    rw [List.head?_cons] at hh
    obtain rfl := Option.some.inj hh.symm
    exact (@represents_split s [] _ _ h).2.2.2.2.2

theorem represents_last_next {s : PState} {l : List Nat}
    (h : represents s l) :
    ∀ tl, s.chain_end = some tl → s.next tl = none := by
  intro tl hc
  have hh := represents_chain_end h
  rw [hc] at hh
  cases hl : l.reverse with
  | nil =>
    rw [← List.head?_reverse, hl] at hh
    simp at hh
  | cons x t =>
    rw [← List.head?_reverse, hl, List.head?_cons] at hh
    have hx : tl = x := Option.some.inj hh
    subst hx
    have hl2 : l = t.reverse ++ [tl] := by
      have h2 := congrArg List.reverse hl
      rw [List.reverse_reverse, List.reverse_cons] at h2
      exact h2
    rw [hl2] at h
    exact (@represents_split s _ [] _ h).2.2.2.2.1

theorem matchingIds_subset (env : Vst2Env) (plugin : Nat) :
    ∀ {d : List Nat} {x : Nat}, x ∈ matchingIds env plugin d → x ∈ d := by
  intro d
  induction d with
  | nil => intro x hx; exact absurd hx (List.not_mem_nil x)
  | cons y ys ih =>
    intro x hx
    unfold matchingIds at hx
    by_cases hid : env.descId y = env.descId plugin
    · rw [if_pos hid] at hx
      rcases List.mem_cons.mp hx with rfl | hx2
      · exact List.mem_cons_self x ys
      · exact List.mem_cons_of_mem y (ih hx2)
    · rw [if_neg hid] at hx
      exact List.mem_cons_of_mem y (ih hx)

theorem downstream_eq_fold (env : Vst2Env) (plugin : Nat) :
    ∀ (d : List Nat) (fuel : Nat) (cur : Option Nat) (s : PState),
      linkSeg s.next cur d none → d.length ≤ fuel →
      vst2_aux_swap_downstream env plugin fuel cur s = auxFold env plugin d s := by
  intro d
  induction d with
  | nil =>
    intro fuel cur s hseg hlen
    rw [linkSeg_nil] at hseg
    subst hseg
    cases fuel with
    | zero => rfl
    | succ f => rfl
  | cons x xs ih =>
    intro fuel cur s hseg hlen
    obtain ⟨hcur, hsegtail⟩ := hseg
    subst hcur
    cases fuel with
    | zero => simp at hlen
    | succ f =>
      have hlen2 : xs.length ≤ f := by
        simp only [List.length_cons] at hlen
        omega
      by_cases hid : env.descId x = env.descId plugin
      · have hkey : vst2_aux_swap_downstream env plugin (f + 1) (some x) s
            = vst2_aux_swap_downstream env plugin f
              ((vst2_plugin_swap_aux_ports env s plugin x).next x)
              (vst2_plugin_swap_aux_ports env s plugin x) := by
          conv_lhs => rw [vst2_aux_swap_downstream]
          rw [if_pos hid]
        have hkey2 : auxFold env plugin (x :: xs) s
            = auxFold env plugin xs (vst2_plugin_swap_aux_ports env s plugin x) := by
          conv_lhs => rw [auxFold]
          rw [if_pos hid]
        rw [hkey, hkey2]
        have hne := (swap_ports_links env s plugin x).2.2.1
        refine ih f _ _ ?_ hlen2
        rw [hne]
        exact hsegtail
      · have hkey : vst2_aux_swap_downstream env plugin (f + 1) (some x) s
            = vst2_aux_swap_downstream env plugin f (s.next x) s := by
          conv_lhs => rw [vst2_aux_swap_downstream]
          rw [if_neg hid]
        have hkey2 : auxFold env plugin (x :: xs) s = auxFold env plugin xs s := by
          conv_lhs => rw [auxFold]
          rw [if_neg hid]
        rw [hkey, hkey2]
        exact ih f _ _ hsegtail hlen2

theorem auxFold_ripple (env : Vst2Env) (p : Nat) :
    ∀ (d : List Nat) (s : PState), p ∉ d → d.Nodup →
      (∀ n, n ≠ p → n ∉ matchingIds env p d →
        ∀ c, (auxFold env p d s).aux n c = s.aux n c)
      ∧ (∀ n c, env.copies p ≤ c → (auxFold env p d s).aux n c = s.aux n c)
      ∧ (∀ i rc gv, (matchingIds env p d).get? i = some rc →
          (p :: matchingIds env p d).get? i = some gv →
          ∀ c, c < env.copies p → (auxFold env p d s).aux rc c = s.aux gv c)
      ∧ (∀ z, (p :: matchingIds env p d).getLast? = some z →
          ∀ c, c < env.copies p → (auxFold env p d s).aux p c = s.aux z c) := by
  intro d
  induction d with
  | nil =>
    intro s hp hd
    refine ⟨fun n _ _ c => rfl, fun n c _ => rfl, ?_, ?_⟩
    · intro i rc gv h1 h2 c hc
      simp [matchingIds] at h1
    · intro z hz c hc
      simp only [matchingIds, List.getLast?_singleton] at hz
      obtain rfl := Option.some.inj hz
      rfl
  | cons x xs ih =>
    intro s hp hd
    have hpx : p ≠ x := fun hh => hp (by rw [hh]; exact List.mem_cons_self x xs)
    have hpxs : p ∉ xs := fun hh => hp (List.mem_cons_of_mem x hh)
    have hxxs : x ∉ xs := (List.nodup_cons.mp hd).1
    have hdxs : xs.Nodup := (List.nodup_cons.mp hd).2
    by_cases hid : env.descId x = env.descId p
    · have hm : matchingIds env p (x :: xs) = x :: matchingIds env p xs := by
        conv_lhs => rw [matchingIds]
        rw [if_pos hid]
      have hf : auxFold env p (x :: xs) s
          = auxFold env p xs (vst2_plugin_swap_aux_ports env s p x) := by
        conv_lhs => rw [auxFold]
        rw [if_pos hid]
      set t := vst2_plugin_swap_aux_ports env s p x with ht
      have htp : ∀ c, c < env.copies p → t.aux p c = s.aux x c := fun c hc =>
        swap_loop_aux_plugin p x hpx (env.copies p) s c hc
      have htx : ∀ c, c < env.copies p → t.aux x c = s.aux p c := fun c hc =>
        swap_loop_aux_other p x hpx (env.copies p) s c hc
      have htf : ∀ n c, (n ≠ p ∧ n ≠ x) ∨ env.copies p ≤ c →
          t.aux n c = s.aux n c := fun n c hc =>
        swap_loop_aux_frame p x (env.copies p) s n c hc
      obtain ⟨ih1, ih2, ih3, ih4⟩ := ih t hpxs hdxs
      rw [hm, hf]
      refine ⟨?_, ?_, ?_, ?_⟩
      · intro n hnp hnm c
        have hnx : n ≠ x := fun hh =>
          hnm (by rw [hh]; exact List.mem_cons_self x _)
        have hnm2 : n ∉ matchingIds env p xs :=
          fun hh => hnm (List.mem_cons_of_mem x hh)
        rw [ih1 n hnp hnm2 c]
        exact htf n c (Or.inl ⟨hnp, hnx⟩)
      · intro n c hc
        rw [ih2 n c hc]
        exact htf n c (Or.inr hc)
      · intro i rc gv h1 h2 c hc
        cases i with
        | zero =>
          rw [List.get?_cons_zero] at h1 h2
          obtain rfl := (Option.some.inj h1).symm
          obtain rfl := Option.some.inj h2
          have hrcm : rc ∉ matchingIds env p xs :=
            fun hh => hxxs (matchingIds_subset env p hh)
          have hrcp : rc ≠ p := fun hh => hpx hh.symm
          rw [ih1 rc hrcp hrcm c]
          exact htx c hc
        | succ j =>
          rw [List.get?_cons_succ] at h1 h2
          cases j with
          | zero =>
            rw [List.get?_cons_zero] at h2
            obtain rfl := Option.some.inj h2
            have hrec := ih3 0 rc p h1 (by rw [List.get?_cons_zero]) c hc
            rw [hrec]
            exact htp c hc
          | succ k =>
            rw [List.get?_cons_succ] at h2
            have hgv : (p :: matchingIds env p xs).get? (k + 1) = some gv := by
              rw [List.get?_cons_succ]
              exact h2
            have hrec := ih3 (k + 1) rc gv h1 hgv c hc
            rw [hrec]
            have hgvm : gv ∈ matchingIds env p xs := List.get?_mem h2
            have hgvxs : gv ∈ xs := matchingIds_subset env p hgvm
            refine htf gv c (Or.inl ⟨?_, ?_⟩)
            · exact fun hh => hpxs (hh ▸ hgvxs)
            · exact fun hh => hxxs (hh ▸ hgvxs)
      · intro z hz c hc
        cases hmm : matchingIds env p xs with
        | nil =>
          rw [List.getLast?_cons_cons, hmm, List.getLast?_singleton] at hz
          obtain rfl := (Option.some.inj hz).symm
          have hrec := ih4 p (by rw [hmm, List.getLast?_singleton]) c hc
          rw [hrec]
          exact htp c hc
        | cons w m2 =>
          rw [List.getLast?_cons_cons, hmm, List.getLast?_cons_cons] at hz
          have hz2 : (p :: matchingIds env p xs).getLast? = some z := by
            rw [hmm, List.getLast?_cons_cons]
            exact hz
          have hrec := ih4 z hz2 c hc
          rw [hrec]
          have hzm : z ∈ matchingIds env p xs := by
            rw [hmm]
            obtain ⟨hne, hzl⟩ :=
              List.mem_getLast?_eq_getLast (Option.mem_def.mpr hz)
            rw [hzl]
            exact List.getLast_mem hne
          have hzxs : z ∈ xs := matchingIds_subset env p hzm
          refine htf z c (Or.inl ⟨?_, ?_⟩)
          · exact fun hh => hpxs (hh ▸ hzxs)
          · exact fun hh => hxxs (hh ▸ hzxs)
    · have hm : matchingIds env p (x :: xs) = matchingIds env p xs := by
        conv_lhs => rw [matchingIds]
        rw [if_neg hid]
      have hf : auxFold env p (x :: xs) s = auxFold env p xs s := by
        conv_lhs => rw [auxFold]
        rw [if_neg hid]
      rw [hm, hf]
      exact ih s hpxs hdxs

theorem move_up_relink_next (s : PState) (plugin pv : Nat) :
    (move_up_relink s plugin pv).next plugin = some pv := by
  unfold move_up_relink
  dsimp only
  rcases hpp : s.prev pv with - | ppv <;> rcases hn : s.next plugin with - | nv <;>
    dsimp only <;> exact upd_same _ _ _

theorem move_up_relink_aux (s : PState) (plugin pv : Nat) :
    (move_up_relink s plugin pv).aux = s.aux := by
  unfold move_up_relink
  dsimp only
  rcases hpp : s.prev pv with - | ppv <;> rcases hn : s.next plugin with - | nv <;>
    rfl

theorem move_down_relink_prev (s : PState) (plugin nv : Nat)
    (h : s.next nv ≠ some plugin) :
    (move_down_relink s plugin nv).prev plugin = some nv := by
  unfold move_down_relink
  dsimp only
  rcases hnn : s.next nv with - | nnv <;> rcases hp : s.prev plugin with - | pv <;>
    dsimp only
  · exact upd_same _ _ _
  · exact upd_same _ _ _
  · have hne : plugin ≠ nnv := by
      intro hh
      exact h (by rw [hnn, hh])
    rw [upd_ne _ _ _ hne]
    exact upd_same _ _ _
  · have hne : plugin ≠ nnv := by
      intro hh
      exact h (by rw [hnn, hh])
    rw [upd_ne _ _ _ hne]
    exact upd_same _ _ _

theorem move_down_relink_aux (s : PState) (plugin nv : Nat) :
    (move_down_relink s plugin nv).aux = s.aux := by
  unfold move_down_relink
  dsimp only
  rcases hnn : s.next nv with - | nnv <;> rcases hp : s.prev plugin with - | pv <;>
    rfl

theorem mem_of_getLast?_eq {l : List Nat} {a : Nat} (h : l.getLast? = some a) :
    a ∈ l := by
  obtain ⟨hne, hval⟩ := List.mem_getLast?_eq_getLast (Option.mem_def.mpr h)
  rw [hval]
  exact List.getLast_mem hne

theorem mem_of_head?_eq {l : List Nat} {a : Nat} (h : l.head? = some a) :
    a ∈ l := by
  cases l with
  | nil => simp at h
  | cons x t =>
    rw [List.head?_cons] at h
    obtain rfl := Option.some.inj h
    exact List.mem_cons_self x t

theorem remove_plugin_state_eq (env : Vst2Env) (s : PState) (p fuel : Nat) :
    (vst2_process_remove_plugin env s p fuel).1.next = (remove_links s p).next
    ∧ (vst2_process_remove_plugin env s p fuel).1.prev = (remove_links s p).prev
    ∧ (vst2_process_remove_plugin env s p fuel).1.chain = (remove_links s p).chain
    ∧ (vst2_process_remove_plugin env s p fuel).1.chain_end
        = (remove_links s p).chain_end := by
  unfold vst2_process_remove_plugin
  dsimp only
  by_cases hj : env.jack_client = true ∧ 0 < env.aux_channels p
  · rw [if_pos hj]
    have hdl := downstream_links env p fuel ((remove_links s p).next p)
      (remove_links s p)
    exact ⟨hdl.2.2.1, hdl.2.2.2, hdl.1, hdl.2.1⟩
  · rw [if_neg hj]
    exact ⟨rfl, rfl, rfl, rfl⟩

theorem change_plugin_state_eq (env : Vst2Env) (s : PState) (p q fuel : Nat) :
    (vst2_process_change_plugin env s p q fuel).1.next = (change_links s p q).next
    ∧ (vst2_process_change_plugin env s p q fuel).1.prev
        = (change_links s p q).prev
    ∧ (vst2_process_change_plugin env s p q fuel).1.chain
        = (change_links s p q).chain
    ∧ (vst2_process_change_plugin env s p q fuel).1.chain_end
        = (change_links s p q).chain_end := by
  unfold vst2_process_change_plugin
  dsimp only
  by_cases hj : env.jack_client = true ∧ 0 < env.aux_channels p
  · rw [if_pos hj]
    have hdl := downstream_links env p fuel ((change_links s p q).next p)
      (change_links s p q)
    exact ⟨hdl.2.2.1, hdl.2.2.2, hdl.1, hdl.2.1⟩
  · rw [if_neg hj]
    exact ⟨rfl, rfl, rfl, rfl⟩

theorem remove_links_effects {s : PState} {l1 l2 : List Nat} {p : Nat}
    (h : represents s (l1 ++ p :: l2)) :
    (remove_links s p).aux = s.aux
    ∧ (remove_links s p).next p = s.next p
    ∧ (remove_links s p).prev p = s.prev p
    ∧ (∀ x, x ∈ l2 → (remove_links s p).next x = s.next x) := by
  obtain ⟨hn1, hn2, hv1, hv2, hnxP, hpvP⟩ := represents_split h
  have hnd := h.2.2
  rw [List.nodup_append, List.nodup_cons] at hnd
  obtain ⟨hd1, ⟨hp2, hd2⟩, hdisj⟩ := hnd
  rcases List.eq_nil_or_concat l1 with rfl | ⟨l1', a, rfl⟩
  · have hpv : s.prev p = none := hpvP
    cases l2 with
    | nil =>
      rw [remove_links_shape_nn hpv hnxP]
      exact ⟨rfl, rfl, rfl, fun x hx => rfl⟩
    | cons b l2' =>
      rw [remove_links_shape_nb hpv hnxP]
      have hpb : p ≠ b := fun hh =>
        hp2 (by rw [hh]; exact List.mem_cons_self b l2')
      refine ⟨rfl, rfl, ?_, fun x hx => rfl⟩
      dsimp only
      rw [upd_ne _ _ _ hpb]
  · simp only [List.concat_eq_append] at hpvP hdisj ⊢
    have hpv : s.prev p = some a := by rw [hpvP, List.getLast?_concat]
    have hpa : p ≠ a := by
      intro hh
      subst hh
      exact hdisj (List.mem_append_right l1' (List.mem_singleton_self p))
        (List.mem_cons_self p l2)
    have hax : ∀ x ∈ l2, x ≠ a := by
      intro x hx hh
      subst hh
      exact hdisj (List.mem_append_right l1' (List.mem_singleton_self x))
        (List.mem_cons_of_mem p hx)
    cases l2 with
    | nil =>
      rw [remove_links_shape_an hpv hnxP hpa]
      refine ⟨rfl, ?_, rfl, fun x hx => absurd hx (List.not_mem_nil x)⟩
      dsimp only
      rw [upd_ne _ _ _ hpa]
    | cons b l2' =>
      rw [remove_links_shape_ab hpv hnxP hpa]
      have hpb : p ≠ b := fun hh =>
        hp2 (by rw [hh]; exact List.mem_cons_self b l2')
      refine ⟨rfl, ?_, ?_, ?_⟩
      · dsimp only
        rw [upd_ne _ _ _ hpa]
      · dsimp only
        rw [upd_ne _ _ _ hpb]
      · intro x hx
        dsimp only
        rw [upd_ne _ _ _ (hax x hx)]

theorem change_links_effects {s : PState} {l1 l2 : List Nat} {p q : Nat}
    (h : represents s (l1 ++ p :: l2)) (hq : q ∉ l1 ++ p :: l2) :
    (change_links s p q).aux = s.aux
    ∧ (change_links s p q).next p = s.next p
    ∧ (change_links s p q).prev p = s.prev p
    ∧ (change_links s p q).next q = s.next p
    ∧ (change_links s p q).prev q = s.prev p
    ∧ (∀ a, s.prev p = some a → (change_links s p q).next a = some q)
    ∧ (s.prev p = none → (change_links s p q).chain = some q)
    ∧ (∀ b, s.next p = some b → (change_links s p q).prev b = some q)
    ∧ (s.next p = none → (change_links s p q).chain_end = some q) := by
  obtain ⟨hn1, hn2, hv1, hv2, hnxP, hpvP⟩ := represents_split h
  have hnd := h.2.2
  rw [List.nodup_append, List.nodup_cons] at hnd
  obtain ⟨hd1, ⟨hp2, hd2⟩, hdisj⟩ := hnd
  have hpq : p ≠ q := fun hh =>
    hq (List.mem_append_right _ (by rw [← hh]; exact List.mem_cons_self p l2))
  have hqp : q ≠ p := fun hh => hpq hh.symm
  rcases List.eq_nil_or_concat l1 with rfl | ⟨l1', a, rfl⟩
  · have hpv : s.prev p = none := hpvP
    cases l2 with
    | nil =>
      rw [change_links_shape_nn hpv hnxP hpq]
      refine ⟨rfl, ?_, ?_, ?_, ?_, ?_, fun _ => rfl, ?_, fun _ => rfl⟩
      · dsimp only
        rw [upd_ne _ _ _ hpq]
      · dsimp only
        rw [upd_ne _ _ _ hpq]
      · dsimp only
        rw [upd_same]
        exact hnxP.symm
      · dsimp only
        rw [upd_same, hpv]
      · intro a ha
        rw [hpv] at ha
        exact Option.noConfusion ha
      · intro b hb
        rw [hnxP] at hb
        exact Option.noConfusion hb
    | cons b l2' =>
      have hqb : q ≠ b := by
        intro hh
        subst hh
        exact hq (List.mem_append_right _
          (List.mem_cons_of_mem p (List.mem_cons_self q l2')))
      have hpb : p ≠ b := fun hh =>
        hp2 (by rw [hh]; exact List.mem_cons_self b l2')
      rw [change_links_shape_nb hpv hnxP hpq]
      refine ⟨rfl, ?_, ?_, ?_, ?_, ?_, fun _ => rfl, ?_, ?_⟩
      · dsimp only
        rw [upd_ne _ _ _ hpq]
      · dsimp only
        rw [upd_ne _ _ _ hpb, upd_ne _ _ _ hpq]
      · dsimp only
        rw [upd_same]
        exact hnxP.symm
      · dsimp only
        rw [upd_ne _ _ _ hqb, upd_same, hpv]
      · intro a ha
        rw [hpv] at ha
        exact Option.noConfusion ha
      · intro b2 hb2
        rw [hnxP, List.head?_cons] at hb2
        obtain rfl := Option.some.inj hb2
        dsimp only
        rw [upd_same]
      · intro hb
        rw [hnxP] at hb
        exact Option.noConfusion hb
  · simp only [List.concat_eq_append] at hpvP hdisj hq ⊢
    have hpv : s.prev p = some a := by rw [hpvP, List.getLast?_concat]
    have hpa : p ≠ a := by
      intro hh
      subst hh
      exact hdisj (List.mem_append_right l1' (List.mem_singleton_self p))
        (List.mem_cons_self p l2)
    have hqa : q ≠ a := by
      intro hh
      subst hh
      exact hq (List.mem_append_left _
        (List.mem_append_right l1' (List.mem_singleton_self q)))
    cases l2 with
    | nil =>
      rw [change_links_shape_an hpv hnxP hpq hpa]
      refine ⟨rfl, ?_, ?_, ?_, ?_, ?_, ?_, ?_, fun _ => rfl⟩
      · dsimp only
        rw [upd_ne _ _ _ hpa, upd_ne _ _ _ hpq]
      · dsimp only
        rw [upd_ne _ _ _ hpq]
      · dsimp only
        rw [upd_ne _ _ _ hqa, upd_same]
        exact hnxP.symm
      · dsimp only
        rw [upd_same, hpv]
      · intro a2 ha2
        rw [hpv] at ha2
        obtain rfl := Option.some.inj ha2
        dsimp only
        rw [upd_same]
      · intro hpv2
        rw [hpv] at hpv2
        exact Option.noConfusion hpv2
      · intro b hb
        rw [hnxP] at hb
        exact Option.noConfusion hb
    | cons b l2' =>
      have hqb : q ≠ b := by
        intro hh
        subst hh
        exact hq (List.mem_append_right _
          (List.mem_cons_of_mem p (List.mem_cons_self q l2')))
      have hpb : p ≠ b := fun hh =>
        hp2 (by rw [hh]; exact List.mem_cons_self b l2')
      have hab : a ≠ b := by
        intro hh
        subst hh
        exact hdisj (List.mem_append_right l1' (List.mem_singleton_self a))
          (List.mem_cons_of_mem p (List.mem_cons_self a l2'))
      rw [change_links_shape_ab hpv hnxP hpq hpa]
      refine ⟨rfl, ?_, ?_, ?_, ?_, ?_, ?_, ?_, ?_⟩
      · dsimp only
        rw [upd_ne _ _ _ hpa, upd_ne _ _ _ hpq]
      · dsimp only
        rw [upd_ne _ _ _ hpb, upd_ne _ _ _ hpq]
      · dsimp only
        rw [upd_ne _ _ _ hqa, upd_same]
        exact hnxP.symm
      · dsimp only
        rw [upd_ne _ _ _ hqb, upd_same, hpv]
      · intro a2 ha2
        rw [hpv] at ha2
        obtain rfl := Option.some.inj ha2
        dsimp only
        rw [upd_same]
      · intro hpv2
        rw [hpv] at hpv2
        exact Option.noConfusion hpv2
      · intro b2 hb2
        rw [hnxP, List.head?_cons] at hb2
        obtain rfl := Option.some.inj hb2
        dsimp only
        rw [upd_same]
      · intro hnx2
        rw [hnxP] at hnx2
        exact Option.noConfusion hnx2

/-- Claim C1: after every finite sequence of append, remove, move and
replace operations applied under their caller contracts to an initially
empty context, yielding node list `l`, the chain is acyclic and doubly
consistent: traversing `next` from the head yields `l` and traversing
`prev` from the tail yields `l` reversed — each linked node exactly once
(`l.Nodup`) — for every node `n` in the chain `n.next = m` implies
`m.prev = n` and `n.prev = m` implies `m.next = n`, the head's `prev` is
nil and the tail's `next` is nil. -/
theorem c1_chain_consistency (s : PState) (l : List Nat) (h : Reachable s l) :
    traverseNext s l.length s.chain = l
    ∧ traversePrev s l.length s.chain_end = l.reverse
    ∧ l.Nodup
    ∧ (∀ n ∈ l, ∀ m, s.next n = some m → s.prev m = some n)
    ∧ (∀ n ∈ l, ∀ m, s.prev n = some m → s.next m = some n)
    ∧ (∀ hd, s.chain = some hd → s.prev hd = none)
    ∧ (∀ tl, s.chain_end = some tl → s.next tl = none) := by
  have hr := reachable_represents h
  refine ⟨traverseLinks_eq hr.1, ?_, hr.2.2, represents_next_prev hr,
    represents_prev_next hr, represents_head_prev hr, represents_last_next hr⟩
  have h2 := traverseLinks_eq hr.2.1
  rwa [List.length_reverse] at h2

/-- Witness for C1 on the two-node chain built by appending 1 then 2. -/
theorem c1_chain_consistency_witness :
    traverseNext sW2 2 sW2.chain = [1, 2]
    ∧ traversePrev sW2 2 sW2.chain_end = [2, 1]
    ∧ ([1, 2] : List Nat).Nodup
    ∧ (∀ n ∈ ([1, 2] : List Nat), ∀ m, sW2.next n = some m → sW2.prev m = some n)
    ∧ (∀ n ∈ ([1, 2] : List Nat), ∀ m, sW2.prev n = some m → sW2.next m = some n)
    ∧ (∀ hd, sW2.chain = some hd → sW2.prev hd = none)
    ∧ (∀ tl, sW2.chain_end = some tl → sW2.next tl = none) :=
  c1_chain_consistency sW2 [1, 2]
    (Reachable.add _ _ 2 (Reachable.add _ _ 1 Reachable.empty (by decide))
      (by decide))

/-- Claim C3 refutation: `vst2_plugin_init_holder` does seed the parameter
mirror with the descriptor's computed defaults, but it does not push each
default exactly once: for a descriptor with one control port (parameter
index 5, default 7) and one status port, the holder's trace contains the
`setParameter` call for that parameter twice — the unguarded second loop,
bounded by `status_port_count`, re-pushes `control_memory[i]`. -/
theorem c3_duplicate_default_push :
    (vst2_plugin_init_holder descC3 { numInputs := 2, numOutputs := 1 }
        48000).control_memory
      = [descC3.default_control_value (descC3.control_port_indicies 0) 48000]
    ∧ (vst2_plugin_init_holder descC3 { numInputs := 2, numOutputs := 1 }
        48000).set_parameter_calls = [(2, 7), (2, 7)]
    ∧ ((vst2_plugin_init_holder descC3 { numInputs := 2, numOutputs := 1 }
        48000).set_parameter_calls.count (2, 7) ≠ 1) := by
  refine ⟨rfl, rfl, ?_⟩
  have h2 : (vst2_plugin_init_holder descC3 { numInputs := 2, numOutputs := 1 }
      48000).set_parameter_calls = [(2, 7), (2, 7)] := rfl
  rw [h2]
  decide

/-- Claim C4: on a represented chain, a move-up request on the head node or
a move-down request on the tail node returns without any write: the whole
state — ordering, links, head and tail references, aux ports — is
unchanged. -/
theorem c4_move_boundary_noop (env : Vst2Env) (s : PState) (l : List Nat)
    (p : Nat) (h : represents s l) :
    (l.head? = some p → vst2_process_move_plugin env s p true = s)
    ∧ (l.getLast? = some p → vst2_process_move_plugin env s p false = s) := by
  constructor
  · intro hh
    cases l with
    | nil => exact absurd hh (by simp)
    | cons x t =>
      rw [List.head?_cons] at hh
      obtain rfl := (Option.some.inj hh).symm
      exact move_up_noop ((@represents_split s [] _ _ h).2.2.2.2.2)
  · intro hh
    cases hl : l.reverse with
    | nil =>
      rw [← List.head?_reverse, hl] at hh
      exact absurd hh (by simp)
    | cons x t =>
      rw [← List.head?_reverse, hl, List.head?_cons] at hh
      obtain rfl := (Option.some.inj hh).symm
      have hl2 : l = t.reverse ++ [p] := by
        have h2 := congrArg List.reverse hl
        rw [List.reverse_reverse, List.reverse_cons] at h2
        exact h2
      rw [hl2] at h
      exact move_down_noop ((@represents_split s _ [] _ h).2.2.2.2.1)

/-- Witness for C4 on the chain 1-2-3, whose head is 1: moving 1 up is a
no-op, and `[1,2,3].getLast? = some 1` being false makes the second part
hold vacuously (its content is exercised by the theorem at the tail). -/
theorem c4_move_boundary_noop_witness :
    (([1, 2, 3] : List Nat).head? = some 1 →
      vst2_process_move_plugin envW sW3 1 true = sW3)
    ∧ (([1, 2, 3] : List Nat).getLast? = some 1 →
      vst2_process_move_plugin envW sW3 1 false = sW3) :=
  c4_move_boundary_noop envW sW3 [1, 2, 3] 1 (by decide)

/-- Claim C7: appending an unlinked node `p` to a represented chain links
it at the tail: afterwards the tail reference is `p`, `p.next` is nil,
`p.prev` is the old tail (nil when the chain was empty), the old tail's
`next` — or the head reference when the chain was empty — points at `p`,
and no other node's links change. -/
theorem c7_add_plugin_links (s : PState) (l : List Nat) (p : Nat)
    (h : represents s l) (hp : p ∉ l) :
    (vst2_process_add_plugin s p).chain_end = some p
    ∧ (vst2_process_add_plugin s p).next p = none
    ∧ (vst2_process_add_plugin s p).prev p = s.chain_end
    ∧ (∀ e, s.chain_end = some e → (vst2_process_add_plugin s p).next e = some p
        ∧ (vst2_process_add_plugin s p).chain = s.chain)
    ∧ (s.chain_end = none → (vst2_process_add_plugin s p).chain = some p)
    ∧ (∀ x, x ≠ p → s.chain_end ≠ some x →
        (vst2_process_add_plugin s p).next x = s.next x)
    ∧ (∀ x, x ≠ p → (vst2_process_add_plugin s p).prev x = s.prev x)
    ∧ (vst2_process_add_plugin s p).aux = s.aux := by
  cases hce : s.chain_end with
  | none =>
    rw [add_shape_nil hce]
    refine ⟨rfl, upd_same _ _ _, ?_, fun e he => Option.noConfusion he,
      fun _ => rfl, ?_, ?_, rfl⟩
    · dsimp only
      rw [upd_same]
    · intro x hx hcex
      dsimp only
      rw [upd_ne _ _ _ hx]
    · intro x hx
      dsimp only
      rw [upd_ne _ _ _ hx]
  | some e =>
    have he : e ∈ l :=
      mem_of_getLast?_eq ((represents_chain_end h).symm.trans hce)
    have hpe : p ≠ e := by
      intro hh
      subst hh
      exact hp he
    rw [add_shape_concat hce]
    refine ⟨rfl, ?_, ?_, ?_, fun hn => Option.noConfusion hn, ?_, ?_, rfl⟩
    · dsimp only
      rw [upd_ne _ _ _ hpe, upd_same]
    · dsimp only
      rw [upd_same]
    · intro e2 he2
      obtain rfl := Option.some.inj he2
      exact ⟨upd_same _ _ _, rfl⟩
    · intro x hx hcex
      have hxe : x ≠ e := by
        intro hh
        exact hcex (by rw [hh])
      dsimp only
      rw [upd_ne _ _ _ hxe, upd_ne _ _ _ hx]
    · intro x hx
      dsimp only
      rw [upd_ne _ _ _ hx]

/-- Witness for C7: appending the unlinked node 5 to the chain 1-2-3. -/
theorem c7_add_plugin_links_witness :
    (vst2_process_add_plugin sW3 5).chain_end = some 5
    ∧ (vst2_process_add_plugin sW3 5).next 5 = none
    ∧ (vst2_process_add_plugin sW3 5).prev 5 = sW3.chain_end
    ∧ (∀ e, sW3.chain_end = some e → (vst2_process_add_plugin sW3 5).next e = some 5
        ∧ (vst2_process_add_plugin sW3 5).chain = sW3.chain)
    ∧ (sW3.chain_end = none → (vst2_process_add_plugin sW3 5).chain = some 5)
    ∧ (∀ x, x ≠ 5 → sW3.chain_end ≠ some x →
        (vst2_process_add_plugin sW3 5).next x = sW3.next x)
    ∧ (∀ x, x ≠ 5 → (vst2_process_add_plugin sW3 5).prev x = sW3.prev x)
    ∧ (vst2_process_add_plugin sW3 5).aux = sW3.aux :=
  c7_add_plugin_links sW3 [1, 2, 3] 5 (by decide) (by decide)

/-- Claim C8: `vst2_plugin_new` returns no node exactly when the
descriptor's plugin entry point is unresolvable (`desc->effect` null, the
only failure `vst2_plugin_open_plugin` can report with the dlopen machinery
commented out), and on the failure path the heap-event trace is balanced —
every allocation made so far has been released; the function never touches
a chain. -/
theorem c8_new_fails_iff (desc : Vst2PluginDesc) (channels rate : Nat) :
    ((vst2_plugin_new desc channels rate).1 = none ↔ desc.effect = none)
    ∧ ((vst2_plugin_new desc channels rate).1 = none →
        balancedEvents (vst2_plugin_new desc channels rate).2) := by
  cases hde : desc.effect with
  | none =>
    have hnew : vst2_plugin_new desc channels rate = (none, []) := by
      unfold vst2_plugin_new vst2_plugin_open_plugin
      rw [hde]
    rw [hnew]
    exact ⟨⟨fun _ => rfl, fun _ => rfl⟩, fun _ t => rfl⟩
  | some eff =>
    have hsome : (vst2_plugin_new desc channels rate).1 ≠ none := by
      unfold vst2_plugin_new vst2_plugin_open_plugin vst2_plugin_instantiate
      rw [hde]
      dsimp only
      exact fun hcon => Option.noConfusion hcon
    exact ⟨⟨fun hn => (hsome hn).elim, fun hnone => Option.noConfusion hnone⟩,
      fun hn => (hsome hn).elim⟩

/-- Witness for C8 at a descriptor with no effect entry point. -/
theorem c8_new_fails_iff_witness :
    ((vst2_plugin_new descNoEffect 2 48000).1 = none ↔ descNoEffect.effect = none)
    ∧ ((vst2_plugin_new descNoEffect 2 48000).1 = none →
        balancedEvents (vst2_plugin_new descNoEffect 2 48000).2) :=
  c8_new_fails_iff descNoEffect 2 48000

/-- Claim C9: every node `vst2_plugin_new` successfully creates carries one
wet/dry mix value per context channel, each initialized to 1. -/
theorem c9_wet_dry_init (desc : Vst2PluginDesc) (channels rate : Nat)
    (plugin : Vst2Plugin)
    (h : (vst2_plugin_new desc channels rate).1 = some plugin) :
    plugin.wet_dry_values.length = channels
    ∧ ∀ i, i < channels → plugin.wet_dry_values.getD i 0 = 1 := by
  cases hde : desc.effect with
  | none =>
    have hnew : vst2_plugin_new desc channels rate = (none, []) := by
      unfold vst2_plugin_new vst2_plugin_open_plugin
      rw [hde]
    rw [hnew] at h
    exact Option.noConfusion h
  | some eff =>
    have hwd : plugin.wet_dry_values
        = (List.range channels).map (fun _ => (1 : ℚ)) := by
      unfold vst2_plugin_new vst2_plugin_open_plugin vst2_plugin_instantiate at h
      rw [hde] at h
      dsimp only at h
      obtain rfl := (Option.some.inj h).symm
      rfl
    rw [hwd]
    refine ⟨by simp, ?_⟩
    intro i hi
    have hlen : i < ((List.range channels).map (fun _ => (1 : ℚ))).length := by
      simpa using hi
    rw [List.getD_eq_getElem _ _ hlen]
    simp

/-- Witness for C9 at the node built from `descC3` with two channels. -/
theorem c9_wet_dry_init_witness :
    pluginW.wet_dry_values.length = 2
    ∧ ∀ i, i < 2 → pluginW.wet_dry_values.getD i 0 = 1 :=
  c9_wet_dry_init descC3 2 48000 pluginW rfl

/-- Claim C10: removing or replacing a linked node never clears the node's
own link fields — after `vst2_process_remove_plugin` and after
`vst2_process_change_plugin`, the removed / displaced node's `prev` and
`next` still hold their pre-call values, pointing at its former
neighbors. -/
theorem c10_unlink_preserves_node_links (env : Vst2Env) (s : PState)
    (l1 l2 : List Nat) (p q fuel : Nat) (h : represents s (l1 ++ p :: l2))
    (hq : q ∉ l1 ++ p :: l2) :
    ((vst2_process_remove_plugin env s p fuel).1.next p = s.next p
      ∧ (vst2_process_remove_plugin env s p fuel).1.prev p = s.prev p)
    ∧ ((vst2_process_change_plugin env s p q fuel).1.next p = s.next p
      ∧ (vst2_process_change_plugin env s p q fuel).1.prev p = s.prev p) := by
  have hre := remove_links_effects h
  have hcf := change_links_effects h hq
  have hr := remove_plugin_state_eq env s p fuel
  have hc := change_plugin_state_eq env s p q fuel
  refine ⟨⟨?_, ?_⟩, ?_, ?_⟩
  · rw [hr.1]
    exact hre.2.1
  · rw [hr.2.1]
    exact hre.2.2.1
  · rw [hc.1]
    exact hcf.2.1
  · rw [hc.2.1]
    exact hcf.2.2.1

/-- Witness for C10: removing node 1 from the chain 1-2-3, or replacing it
by the fresh node 9, leaves node 1's own links pointing as before. -/
theorem c10_unlink_preserves_node_links_witness :
    ((vst2_process_remove_plugin envW sW3 1 3).1.next 1 = sW3.next 1
      ∧ (vst2_process_remove_plugin envW sW3 1 3).1.prev 1 = sW3.prev 1)
    ∧ ((vst2_process_change_plugin envW sW3 1 9 3).1.next 1 = sW3.next 1
      ∧ (vst2_process_change_plugin envW sW3 1 9 3).1.prev 1 = sW3.prev 1) :=
  c10_unlink_preserves_node_links envW sW3 [] [2, 3] 1 9 3 (by decide) (by decide)

/-- Claim C5: replacing node `p` of a represented chain by an unlinked node
`q` splices `q` into exactly `p`'s position — the call returns the
displaced node `p`, the resulting chain is the old one with `q` in `p`'s
slot, `q.next` and `q.prev` take `p`'s old links, the old predecessor's
`next` (or the head reference) and the old successor's `prev` (or the tail
reference) now point at `q`. -/
theorem c5_change_plugin_splices (env : Vst2Env) (s : PState)
    (l1 l2 : List Nat) (p q fuel : Nat) (h : represents s (l1 ++ p :: l2))
    (hq : q ∉ l1 ++ p :: l2) :
    (vst2_process_change_plugin env s p q fuel).2 = p
    ∧ represents (vst2_process_change_plugin env s p q fuel).1 (l1 ++ q :: l2)
    ∧ (vst2_process_change_plugin env s p q fuel).1.next q = s.next p
    ∧ (vst2_process_change_plugin env s p q fuel).1.prev q = s.prev p
    ∧ (∀ a, s.prev p = some a →
        (vst2_process_change_plugin env s p q fuel).1.next a = some q)
    ∧ (s.prev p = none →
        (vst2_process_change_plugin env s p q fuel).1.chain = some q)
    ∧ (∀ b, s.next p = some b →
        (vst2_process_change_plugin env s p q fuel).1.prev b = some q)
    ∧ (s.next p = none →
        (vst2_process_change_plugin env s p q fuel).1.chain_end = some q) := by
  have hcf := change_links_effects h hq
  have hc := change_plugin_state_eq env s p q fuel
  refine ⟨rfl, ?_, ?_, ?_, ?_, ?_, ?_, ?_⟩
  · exact (change_to_links env fuel s p q (l1 ++ q :: l2)).mpr
      (change_links_represents h hq)
  · rw [hc.1]
    exact hcf.2.2.2.1
  · rw [hc.2.1]
    exact hcf.2.2.2.2.1
  · intro a ha
    rw [hc.1]
    exact hcf.2.2.2.2.2.1 a ha
  · intro hn
    rw [hc.2.2.1]
    exact hcf.2.2.2.2.2.2.1 hn
  · intro b hb
    rw [hc.2.1]
    exact hcf.2.2.2.2.2.2.2.1 b hb
  · intro hn
    rw [hc.2.2.2]
    exact hcf.2.2.2.2.2.2.2.2 hn

/-- Witness for C5: replacing the middle node 2 of the chain 1-2-3 by the
fresh node 9 yields the chain 1-9-3 with the spliced links. -/
theorem c5_change_plugin_splices_witness :
    (vst2_process_change_plugin envW sW3 2 9 3).2 = 2
    ∧ represents (vst2_process_change_plugin envW sW3 2 9 3).1 ([1] ++ 9 :: [3])
    ∧ (vst2_process_change_plugin envW sW3 2 9 3).1.next 9 = sW3.next 2
    ∧ (vst2_process_change_plugin envW sW3 2 9 3).1.prev 9 = sW3.prev 2
    ∧ (∀ a, sW3.prev 2 = some a →
        (vst2_process_change_plugin envW sW3 2 9 3).1.next a = some 9)
    ∧ (sW3.prev 2 = none →
        (vst2_process_change_plugin envW sW3 2 9 3).1.chain = some 9)
    ∧ (∀ b, sW3.next 2 = some b →
        (vst2_process_change_plugin envW sW3 2 9 3).1.prev b = some 9)
    ∧ (sW3.next 2 = none →
        (vst2_process_change_plugin envW sW3 2 9 3).1.chain_end = some 9) :=
  c5_change_plugin_splices envW sW3 [1] [3] 2 9 3 (by decide) (by decide)

/-- Counterexample to C2 as stated: on the chain 1-2-3 where every node
shares one descriptor id and one aux channel and node `n` holds port `n`,
removing node 1 does not give every downstream same-id node the removed
node's former port: the swap ripples pairwise down the chain, so node 2
ends with port 1 but node 3 ends with node 2's former port 2, not the
removed node's port 1. -/
theorem c2_broadcast_counterexample :
    envW.jack_client = true
    ∧ 0 < envW.aux_channels 1
    ∧ envW.descId 2 = envW.descId 1
    ∧ envW.descId 3 = envW.descId 1
    ∧ represents sW3 [1, 2, 3]
    ∧ sW3.aux 1 0 = 1
    ∧ (vst2_process_remove_plugin envW sW3 1 3).1.aux 2 0 = 1
    ∧ (vst2_process_remove_plugin envW sW3 1 3).1.aux 3 0 = 2
    ∧ ¬(vst2_process_remove_plugin envW sW3 1 3).1.aux 3 0 = sW3.aux 1 0 := by
  decide

/-- Claim C2 (amended): when the jack client is active and the removed
node's descriptor declares aux channels, the downstream loop of
`vst2_process_remove_plugin` swaps pairwise along the same-id downstream
nodes: the `i`-th same-id downstream node receives the ports that the
previous node of the sequence (removed node, then the same-id downstream
nodes in chain order) held before the call — so only the FIRST matching
node receives the removed node's former ports — the removed node ends with
the last matching node's former ports, and every other node and every copy
index at or above `copies` is untouched. -/
theorem c2_remove_aux_ripple (env : Vst2Env) (s : PState) (l1 l2 : List Nat)
    (p fuel : Nat) (h : represents s (l1 ++ p :: l2))
    (hj : env.jack_client = true) (ha : 0 < env.aux_channels p)
    (hf : l2.length ≤ fuel) :
    (∀ i rc gv, (matchingIds env p l2).get? i = some rc →
        (p :: matchingIds env p l2).get? i = some gv →
        ∀ c, c < env.copies p →
          (vst2_process_remove_plugin env s p fuel).1.aux rc c = s.aux gv c)
    ∧ (∀ z, (p :: matchingIds env p l2).getLast? = some z →
        ∀ c, c < env.copies p →
          (vst2_process_remove_plugin env s p fuel).1.aux p c = s.aux z c)
    ∧ (∀ n, n ≠ p → n ∉ matchingIds env p l2 →
        ∀ c, (vst2_process_remove_plugin env s p fuel).1.aux n c = s.aux n c)
    ∧ (∀ n c, env.copies p ≤ c →
        (vst2_process_remove_plugin env s p fuel).1.aux n c = s.aux n c) := by
  obtain ⟨hn1, hn2, hv1, hv2, hnxP, hpvP⟩ := represents_split h
  have hnd := h.2.2
  rw [List.nodup_append, List.nodup_cons] at hnd
  obtain ⟨hd1, ⟨hp2, hd2⟩, hdisj⟩ := hnd
  have heff := remove_links_effects h
  have hif : (vst2_process_remove_plugin env s p fuel).1
      = vst2_aux_swap_downstream env p fuel ((remove_links s p).next p)
          (remove_links s p) := by
    unfold vst2_process_remove_plugin
    dsimp only
    rw [if_pos ⟨hj, ha⟩]
  have hseg : linkSeg (remove_links s p).next (s.next p) l2 none :=
    (linkSeg_congr (fun x hx => heff.2.2.2 x hx)).mpr hn2
  have hrw : (vst2_process_remove_plugin env s p fuel).1
      = auxFold env p l2 (remove_links s p) := by
    rw [hif, heff.2.1]
    exact downstream_eq_fold env p l2 fuel (s.next p) (remove_links s p) hseg hf
  obtain ⟨r1, r2, r3, r4⟩ := auxFold_ripple env p l2 (remove_links s p) hp2 hd2
  have haux : (remove_links s p).aux = s.aux := heff.1
  refine ⟨?_, ?_, ?_, ?_⟩
  · intro i rc gv h1 h2 c hc
    rw [hrw, r3 i rc gv h1 h2 c hc, haux]
  · intro z hz c hc
    rw [hrw, r4 z hz c hc, haux]
  · intro n hn hnm c
    rw [hrw, r1 n hn hnm c, haux]
  · intro n c hc
    rw [hrw, r2 n c hc, haux]

/-- Witness for the amended C2 on the chain 1-2-3 (both downstream nodes
match the removed node's descriptor id). -/
theorem c2_remove_aux_ripple_witness :
    (∀ i rc gv, (matchingIds envW 1 [2, 3]).get? i = some rc →
        (1 :: matchingIds envW 1 [2, 3]).get? i = some gv →
        ∀ c, c < envW.copies 1 →
          (vst2_process_remove_plugin envW sW3 1 3).1.aux rc c = sW3.aux gv c)
    ∧ (∀ z, (1 :: matchingIds envW 1 [2, 3]).getLast? = some z →
        ∀ c, c < envW.copies 1 →
          (vst2_process_remove_plugin envW sW3 1 3).1.aux 1 c = sW3.aux z c)
    ∧ (∀ n, n ≠ 1 → n ∉ matchingIds envW 1 [2, 3] →
        ∀ c, (vst2_process_remove_plugin envW sW3 1 3).1.aux n c = sW3.aux n c)
    ∧ (∀ n c, envW.copies 1 ≤ c →
        (vst2_process_remove_plugin envW sW3 1 3).1.aux n c = sW3.aux n c) :=
  c2_remove_aux_ripple envW sW3 [] [2, 3] 1 3 (by decide) rfl (by decide)
    (by decide)

/-- Claim C6: when the jack client is active and the moved node declares
aux channels, moving node `p` up past its predecessor `a` (or down past its
successor `b`) with matching descriptor ids exchanges the two nodes'
per-copy aux port handles pairwise — for every copy below `copies`, `p`
ends with the neighbor's former handle and the neighbor with `p`'s — while
every other node and every copy index at or above `copies` is untouched;
with differing descriptor ids no node's aux handles change at all. -/
theorem c6_move_aux_swap (env : Vst2Env) (hj : env.jack_client = true) :
    (∀ (s : PState) (l1 l2 : List Nat) (a p : Nat),
      represents s (l1 ++ a :: p :: l2) → 0 < env.aux_channels p →
      (env.descId a = env.descId p →
          (∀ c, c < env.copies p →
            (vst2_process_move_plugin env s p true).aux p c = s.aux a c
            ∧ (vst2_process_move_plugin env s p true).aux a c = s.aux p c)
          ∧ (∀ n c, n ≠ p → n ≠ a →
              (vst2_process_move_plugin env s p true).aux n c = s.aux n c)
          ∧ (∀ n c, env.copies p ≤ c →
              (vst2_process_move_plugin env s p true).aux n c = s.aux n c))
      ∧ (env.descId a ≠ env.descId p →
          (vst2_process_move_plugin env s p true).aux = s.aux))
    ∧ (∀ (s : PState) (l1 l2 : List Nat) (p b : Nat),
      represents s (l1 ++ p :: b :: l2) → 0 < env.aux_channels p →
      (env.descId b = env.descId p →
          (∀ c, c < env.copies p →
            (vst2_process_move_plugin env s p false).aux p c = s.aux b c
            ∧ (vst2_process_move_plugin env s p false).aux b c = s.aux p c)
          ∧ (∀ n c, n ≠ p → n ≠ b →
              (vst2_process_move_plugin env s p false).aux n c = s.aux n c)
          ∧ (∀ n c, env.copies p ≤ c →
              (vst2_process_move_plugin env s p false).aux n c = s.aux n c))
      ∧ (env.descId b ≠ env.descId p →
          (vst2_process_move_plugin env s p false).aux = s.aux)) := by
  constructor
  · intro s l1 l2 a p h ha
    have hassoc : l1 ++ a :: p :: l2 = (l1 ++ [a]) ++ p :: l2 := by simp
    rw [hassoc] at h
    obtain ⟨hn1, hn2, hv1, hv2, hnxP, hpvP⟩ := represents_split h
    have hpv : s.prev p = some a := by rw [hpvP, List.getLast?_concat]
    have hnd := h.2.2
    rw [List.nodup_append, List.nodup_cons] at hnd
    obtain ⟨hd1a, ⟨hpl2, hdl2⟩, hdisj⟩ := hnd
    have hpa : p ≠ a := by
      intro hh
      subst hh
      exact hdisj (List.mem_append_right l1 (List.mem_singleton_self _))
        (List.mem_cons_self _ l2)
    have hm := @move_up_unfold env s p _ hpv
    have hnext : (move_up_relink s p a).next p = some a := move_up_relink_next s p a
    have hauxeq : (move_up_relink s p a).aux = s.aux := move_up_relink_aux s p a
    have hkey : vst2_move_aux_swap env (move_up_relink s p a) p true
        = if env.descId a = env.descId p
            then vst2_plugin_swap_aux_ports env (move_up_relink s p a) p a
            else move_up_relink s p a := by
      unfold vst2_move_aux_swap
      rw [if_pos ⟨hj, ha⟩, if_pos rfl, hnext]
    constructor
    · intro hid
      rw [hm, hkey, if_pos hid]
      refine ⟨?_, ?_, ?_⟩
      · intro c hc
        constructor
        · show (vst2_plugin_swap_aux_ports_loop p a (env.copies p)
              (move_up_relink s p a)).aux p c = s.aux a c
          rw [swap_loop_aux_plugin p a hpa (env.copies p)
            (move_up_relink s p a) c hc]
          exact congrFun (congrFun hauxeq a) c
        · show (vst2_plugin_swap_aux_ports_loop p a (env.copies p)
              (move_up_relink s p a)).aux a c = s.aux p c
          rw [swap_loop_aux_other p a hpa (env.copies p)
            (move_up_relink s p a) c hc]
          exact congrFun (congrFun hauxeq p) c
      · intro n c hnp hna
        show (vst2_plugin_swap_aux_ports_loop p a (env.copies p)
            (move_up_relink s p a)).aux n c = s.aux n c
        rw [swap_loop_aux_frame p a (env.copies p) (move_up_relink s p a) n c
          (Or.inl ⟨hnp, hna⟩)]
        exact congrFun (congrFun hauxeq n) c
      · intro n c hc
        show (vst2_plugin_swap_aux_ports_loop p a (env.copies p)
            (move_up_relink s p a)).aux n c = s.aux n c
        rw [swap_loop_aux_frame p a (env.copies p) (move_up_relink s p a) n c
          (Or.inr hc)]
        exact congrFun (congrFun hauxeq n) c
    · intro hid
      rw [hm, hkey, if_neg hid]
      exact hauxeq
  · intro s l1 l2 p b h ha
    obtain ⟨hn1, hn2, hv1, hv2, hnxP, hpvP⟩ := represents_split h
    have hnx : s.next p = some b := by rw [hnxP, List.head?_cons]
    have hnd := h.2.2
    rw [List.nodup_append, List.nodup_cons] at hnd
    obtain ⟨hd1, ⟨hpbl2, hdbl2⟩, hdisj⟩ := hnd
    have hpb : p ≠ b := by
      intro hh
      subst hh
      exact hpbl2 (List.mem_cons_self _ l2)
    obtain ⟨-, hn2b⟩ := hn2
    have hnb : s.next b = l2.head? := linkSeg_head hn2b
    have hnbp : s.next b ≠ some p := by
      rw [hnb]
      cases l2 with
      | nil => exact fun hh => Option.noConfusion hh
      | cons d l2' =>
        rw [List.head?_cons]
        intro hh
        obtain rfl := Option.some.inj hh
        exact hpbl2 (List.mem_cons_of_mem b (List.mem_cons_self _ l2'))
    have hm := @move_down_unfold env s p _ hnx
    have hprev : (move_down_relink s p b).prev p = some b :=
      move_down_relink_prev s p b hnbp
    have hauxeq : (move_down_relink s p b).aux = s.aux := move_down_relink_aux s p b
    have hkey : vst2_move_aux_swap env (move_down_relink s p b) p false
        = if env.descId b = env.descId p
            then vst2_plugin_swap_aux_ports env (move_down_relink s p b) p b
            else move_down_relink s p b := by
      unfold vst2_move_aux_swap
      rw [if_pos ⟨hj, ha⟩, if_neg (by decide), hprev]
    constructor
    · intro hid
      rw [hm, hkey, if_pos hid]
      refine ⟨?_, ?_, ?_⟩
      · intro c hc
        constructor
        · show (vst2_plugin_swap_aux_ports_loop p b (env.copies p)
              (move_down_relink s p b)).aux p c = s.aux b c
          rw [swap_loop_aux_plugin p b hpb (env.copies p)
            (move_down_relink s p b) c hc]
          exact congrFun (congrFun hauxeq b) c
        · show (vst2_plugin_swap_aux_ports_loop p b (env.copies p)
              (move_down_relink s p b)).aux b c = s.aux p c
          rw [swap_loop_aux_other p b hpb (env.copies p)
            (move_down_relink s p b) c hc]
          exact congrFun (congrFun hauxeq p) c
      · intro n c hnp hnb2
        show (vst2_plugin_swap_aux_ports_loop p b (env.copies p)
            (move_down_relink s p b)).aux n c = s.aux n c
        rw [swap_loop_aux_frame p b (env.copies p) (move_down_relink s p b) n c
          (Or.inl ⟨hnp, hnb2⟩)]
        exact congrFun (congrFun hauxeq n) c
      · intro n c hc
        show (vst2_plugin_swap_aux_ports_loop p b (env.copies p)
            (move_down_relink s p b)).aux n c = s.aux n c
        rw [swap_loop_aux_frame p b (env.copies p) (move_down_relink s p b) n c
          (Or.inr hc)]
        exact congrFun (congrFun hauxeq n) c
    · intro hid
      rw [hm, hkey, if_neg hid]
      exact hauxeq

/-- Witness for C6 at the environment with one descriptor id, one aux
channel and one copy per node. -/
theorem c6_move_aux_swap_witness :
    (∀ (s : PState) (l1 l2 : List Nat) (a p : Nat),
      represents s (l1 ++ a :: p :: l2) → 0 < envW.aux_channels p →
      (envW.descId a = envW.descId p →
          (∀ c, c < envW.copies p →
            (vst2_process_move_plugin envW s p true).aux p c = s.aux a c
            ∧ (vst2_process_move_plugin envW s p true).aux a c = s.aux p c)
          ∧ (∀ n c, n ≠ p → n ≠ a →
              (vst2_process_move_plugin envW s p true).aux n c = s.aux n c)
          ∧ (∀ n c, envW.copies p ≤ c →
              (vst2_process_move_plugin envW s p true).aux n c = s.aux n c))
      ∧ (envW.descId a ≠ envW.descId p →
          (vst2_process_move_plugin envW s p true).aux = s.aux))
    ∧ (∀ (s : PState) (l1 l2 : List Nat) (p b : Nat),
      represents s (l1 ++ p :: b :: l2) → 0 < envW.aux_channels p →
      (envW.descId b = envW.descId p →
          (∀ c, c < envW.copies p →
            (vst2_process_move_plugin envW s p false).aux p c = s.aux b c
            ∧ (vst2_process_move_plugin envW s p false).aux b c = s.aux p c)
          ∧ (∀ n c, n ≠ p → n ≠ b →
              (vst2_process_move_plugin envW s p false).aux n c = s.aux n c)
          ∧ (∀ n c, envW.copies p ≤ c →
              (vst2_process_move_plugin envW s p false).aux n c = s.aux n c))
      ∧ (envW.descId b ≠ envW.descId p →
          (vst2_process_move_plugin envW s p false).aux = s.aux)) :=
  c6_move_aux_swap envW rfl
